import Mathlib

/-!
Verification of the telemetry ingestion and replay core:
the IMU ring buffer, the signal journal, the ingress message handler,
the replay sender, and the port configuration of the ws-server.

Shallow embedding conventions:
* JS strings and file contents are `List Char`.
* JS numbers appearing as timestamps/capacities are modelled as `Int`
  (the claims only use their ordering and equality; float NaN/Inf are
  outside the modelled domain).
* JSON documents are modelled by the inductive `Json` below, with numeric
  leaves restricted to integers so that `JSON.stringify`/`JSON.parse` accept
  an exact executable model (`stringifyJson`/`jsonParse`).
* The filesystem slot backing a journal is `FileState := Option (List Char)`
  (`none` = the file does not exist).
* Exceptions are `Except`; operations that may mutate state and may throw
  return the post state paired with an `Except` result, so that
  "thrown and left the state unchanged" is expressible.
-/

namespace Vib3

/-! ## JSON values (model of the JS value universe that `JSON.stringify` accepts) -/

inductive Json where
  | null : Json
  | bool (b : Bool) : Json
  | num (n : Int) : Json
  | str (s : List Char) : Json
  | arr (items : List Json) : Json
  | obj (fields : List (List Char × Json)) : Json
deriving Repr

/-! ## `JSON.stringify` (no indentation argument, as in the source) -/

/-- Lowercase hexadecimal digit, as emitted by `JSON.stringify` in escapes. -/
def hexDig (n : Nat) : Char :=
  if n < 10 then Char.ofNat (48 + n) else Char.ofNat (87 + n)

/-- How `JSON.stringify` emits one character inside a string literal. -/
def escapeChar (c : Char) : List Char :=
  if c = '"' then ['\\', '"']
  else if c = '\\' then ['\\', '\\']
  else if c = '\x08' then ['\\', 'b']
  else if c = '\x0c' then ['\\', 'f']
  else if c = '\n' then ['\\', 'n']
  else if c = '\r' then ['\\', 'r']
  else if c = '\t' then ['\\', 't']
  else if c.toNat < 32 then
    ['\\', 'u', '0', '0', hexDig (c.toNat / 16), hexDig (c.toNat % 16)]
  else [c]

/-- A JSON string literal: quote, escaped body, quote. -/
def quoteStr (s : List Char) : List Char :=
  '"' :: (s.flatMap escapeChar ++ ['"'])

/-- The decimal digit character for `n < 10`. -/
def digitChar (n : Nat) : Char := Char.ofNat (48 + n)

/-- Decimal digits of `n`, most significant first; `fuel` bounds the
recursion and is always sufficient at `natChars`'s `n + 1`. -/
def natCharsAux : Nat → Nat → List Char
  | 0, _ => []
  | fuel + 1, n =>
      if n < 10 then [digitChar n]
      else natCharsAux fuel (n / 10) ++ [digitChar (n % 10)]

/-- Decimal digits of a natural number, most significant first. -/
def natChars (n : Nat) : List Char := natCharsAux (n + 1) n

/-- Decimal rendering of an integer, as `JSON.stringify` prints it. -/
def intChars (i : Int) : List Char :=
  if i < 0 then '-' :: natChars i.natAbs else natChars i.natAbs

mutual

/-- `JSON.stringify` on a JSON value (string output as a character list). -/
def stringifyJson : Json → List Char
  | .null => "null".data
  | .bool true => "true".data
  | .bool false => "false".data
  | .num i => intChars i
  | .str s => quoteStr s
  | .arr items => '[' :: (stringifyItems items ++ [']'])
  | .obj fields => '{' :: (stringifyFields fields ++ ['}'])

/-- Comma-separated renderings of array elements. -/
def stringifyItems : List Json → List Char
  | [] => []
  | [x] => stringifyJson x
  | x :: y :: rest => stringifyJson x ++ ',' :: stringifyItems (y :: rest)

/-- Comma-separated `"key":value` renderings of object members. -/
def stringifyFields : List (List Char × Json) → List Char
  | [] => []
  | [(k, v)] => quoteStr k ++ ':' :: stringifyJson v
  | (k, v) :: kv :: rest =>
      quoteStr k ++ ':' :: stringifyJson v ++ ',' :: stringifyFields (kv :: rest)

end

/-! ## `JSON.parse`

Modelled on the grammar `JSON.stringify` emits (no insignificant whitespace;
numbers are integer literals).  A failed parse is `.error`, matching the
`SyntaxError` that `JSON.parse` throws. -/

/-- Is `c` a decimal digit? -/
def isDig (c : Char) : Bool := 48 ≤ c.toNat && c.toNat ≤ 57

/-- Longest leading run of decimal digits and the remaining input. -/
def digitRun : List Char → List Char × List Char
  | [] => ([], [])
  | c :: cs =>
      if isDig c then
        let p := digitRun cs
        (c :: p.1, p.2)
      else ([], c :: cs)

/-- Value of a digit string, most significant first. -/
def decValue (ds : List Char) : Nat :=
  ds.foldl (fun a c => 10 * a + (c.toNat - 48)) 0

/-- Input that cannot extend a digit run: empty or headed by a non-digit. -/
def headNonDigit : List Char → Bool
  | [] => true
  | c :: _ => !(isDig c)

/-- Value of a hexadecimal digit character, if it is one. -/
def hexVal (c : Char) : Option Nat :=
  if 48 ≤ c.toNat ∧ c.toNat ≤ 57 then some (c.toNat - 48)
  else if 97 ≤ c.toNat ∧ c.toNat ≤ 102 then some (c.toNat - 87)
  else if 65 ≤ c.toNat ∧ c.toNat ≤ 70 then some (c.toNat - 55)
  else none

/-- The character named by a single-letter escape code. -/
def escCode (c : Char) : Option Char :=
  if c = '"' then some '"'
  else if c = '\\' then some '\\'
  else if c = '/' then some '/'
  else if c = 'b' then some '\x08'
  else if c = 'f' then some '\x0c'
  else if c = 'n' then some '\n'
  else if c = 'r' then some '\r'
  else if c = 't' then some '\t'
  else none

/-- Scan a string literal body (after the opening quote), unescaping as we go.
Returns the string contents and the input after the closing quote. -/
def scanStr (acc : List Char) : (input : List Char) → Except String (List Char × List Char)
  | [] => .error "Unterminated string in JSON"
  | c :: rest =>
      if c = '"' then .ok (acc.reverse, rest)
      else if c = '\\' then
        match rest with
        | 'u' :: h1 :: h2 :: h3 :: h4 :: rest2 =>
            match hexVal h1, hexVal h2, hexVal h3, hexVal h4 with
            | some a, some b, some cc, some d =>
                scanStr (Char.ofNat (((a * 16 + b) * 16 + cc) * 16 + d) :: acc) rest2
            | _, _, _, _ => .error "Bad Unicode escape in JSON"
        | e :: rest2 =>
            match escCode e with
            | some ch => scanStr (ch :: acc) rest2
            | none => .error "Bad escaped character in JSON"
        | [] => .error "Unterminated string in JSON"
      else scanStr (c :: acc) rest
termination_by structural input => input

mutual

/-- Parse one JSON value; `fuel` bounds the recursion depth (the callers
supply more fuel than the input length, so it never runs out on real input). -/
def parseJsonVal : Nat → List Char → Except String (Json × List Char)
  | 0, _ => .error "JSON recursion limit"
  | _ + 1, [] => .error "Unexpected end of JSON input"
  | fuel + 1, c :: r =>
      if c = 'n' then
        match r with
        | 'u' :: 'l' :: 'l' :: t => .ok (.null, t)
        | _ => .error "Unexpected token in JSON"
      else if c = 't' then
        match r with
        | 'r' :: 'u' :: 'e' :: t => .ok (.bool true, t)
        | _ => .error "Unexpected token in JSON"
      else if c = 'f' then
        match r with
        | 'a' :: 'l' :: 's' :: 'e' :: t => .ok (.bool false, t)
        | _ => .error "Unexpected token in JSON"
      else if c = '"' then
        match scanStr [] r with
        | .ok (s, t) => .ok (.str s, t)
        | .error e => .error e
      else if c = '[' then
        match r with
        | [] => .error "Unexpected end of JSON input"
        | d :: t =>
            if d = ']' then .ok (.arr [], t)
            else
              match parseJsonItems fuel (d :: t) with
              | .ok (items, u) => .ok (.arr items, u)
              | .error e => .error e
      else if c = '{' then
        match r with
        | [] => .error "Unexpected end of JSON input"
        | d :: t =>
            if d = '}' then .ok (.obj [], t)
            else
              match parseJsonFields fuel (d :: t) with
              | .ok (fields, u) => .ok (.obj fields, u)
              | .error e => .error e
      else if c = '-' then
        match digitRun r with
        | ([], _) => .error "Bad number in JSON"
        | (ds, t) => .ok (.num (-(decValue ds : Int)), t)
      else if isDig c then
        match digitRun (c :: r) with
        | (ds, t) => .ok (.num (decValue ds : Int), t)
      else .error "Unexpected token in JSON"

/-- Parse one or more comma-separated values, consuming the closing `]`. -/
def parseJsonItems : Nat → List Char → Except String (List Json × List Char)
  | 0, _ => .error "JSON recursion limit"
  | fuel + 1, input =>
      match parseJsonVal fuel input with
      | .error e => .error e
      | .ok (v, r) =>
          match r with
          | ',' :: r2 =>
              match parseJsonItems fuel r2 with
              | .ok (vs, u) => .ok (v :: vs, u)
              | .error e => .error e
          | ']' :: r2 => .ok ([v], r2)
          | _ => .error "Expected comma or bracket after JSON array element"

/-- Parse one or more comma-separated members, consuming the closing `}`. -/
def parseJsonFields : Nat → List Char →
    Except String (List (List Char × Json) × List Char)
  | 0, _ => .error "JSON recursion limit"
  | fuel + 1, input =>
      match input with
      | [] => .error "Expected property name in JSON"
      | c :: r =>
          if c = '"' then
            match scanStr [] r with
            | .error e => .error e
            | .ok (key, r1) =>
                match r1 with
                | ':' :: r2 =>
                    match parseJsonVal fuel r2 with
                    | .error e => .error e
                    | .ok (v, r3) =>
                        match r3 with
                        | ',' :: r4 =>
                            match parseJsonFields fuel r4 with
                            | .ok (kvs, u) => .ok ((key, v) :: kvs, u)
                            | .error e => .error e
                        | '}' :: r4 => .ok ([(key, v)], r4)
                        | _ => .error "Expected comma or brace after JSON member"
                | _ => .error "Expected colon in JSON object"
          else .error "Expected property name in JSON"

end

/-- `JSON.parse`: a complete document, rejecting trailing characters. -/
def jsonParse (s : List Char) : Except String Json :=
  match parseJsonVal (s.length + 1) s with
  | .error e => .error e
  | .ok (j, []) => .ok j
  | .ok (_, _ :: _) => .error "Unexpected non-whitespace character after JSON"

/-- Look a key up in an object's member list (first match, as JS does). -/
def lookupField (key : List Char) : List (List Char × Json) → Option Json
  | [] => none
  | (k, v) :: rest => if k = key then some v else lookupField key rest

/-- JS property access `j[key]`: `none` models `undefined`. -/
def Json.getField (j : Json) (key : List Char) : Option Json :=
  match j with
  | .obj fields => lookupField key fields
  | _ => none

/-! ## IMU ring buffer (`IMURingBuffer` in `src/runtime/bus/journal.ts`)

`ts` is the sample's monotonic-seconds timestamp; the quaternion and the
optional acceleration/gyro triples ride along untouched by every buffer
operation, so their numeric leaves are likewise modelled as `Int`. -/

structure IMUSample where
  ts : Int
  quaternion : Int × Int × Int × Int
  acceleration : Option (Int × Int × Int) := none
  gyro : Option (Int × Int × Int) := none
deriving Repr, DecidableEq

structure IMURingBuffer where
  capacity : Nat
  buffer : List IMUSample
deriving Repr, DecidableEq

/-- The constructor: throws `capacity must be positive` on `capacity <= 0`.
The argument is an `Int` since a JS caller may pass any number; the stored
capacity is a `Nat` because the guard has ensured positivity. -/
def IMURingBuffer.create (capacity : Int) : Except String IMURingBuffer :=
  if capacity ≤ 0 then .error "capacity must be positive"
  else .ok ⟨capacity.toNat, []⟩

/-- The unguarded part of `push`: append at the tail, then drop the head
(`this.buffer.shift()`) if the length now exceeds the capacity. -/
def IMURingBuffer.accept (b : IMURingBuffer) (s : IMUSample) : IMURingBuffer :=
  let grown := b.buffer ++ [s]
  if b.capacity < grown.length then ⟨b.capacity, grown.tail⟩ else ⟨b.capacity, grown⟩

/-- `push(sample)`: throws (state unchanged) when the sample's `ts` is
strictly below the current tail's `ts`; otherwise appends and evicts. -/
def IMURingBuffer.push (b : IMURingBuffer) (s : IMUSample) :
    IMURingBuffer × Except String Unit :=
  match b.buffer.getLast? with
  | some tail =>
      if s.ts < tail.ts then (b, .error "samples must be appended in monotonic order")
      else (b.accept s, .ok ())
  | none => (b.accept s, .ok ())

/-- `snapshot()`: a copy of the contents, oldest first. -/
def IMURingBuffer.snapshot (b : IMURingBuffer) : List IMUSample := b.buffer

/-- `latest()`: the most recent sample, or `undefined` on an empty buffer. -/
def IMURingBuffer.latest (b : IMURingBuffer) : Option IMUSample := b.buffer.getLast?

/-- `clear()`: reset to empty. -/
def IMURingBuffer.wipe (b : IMURingBuffer) : IMURingBuffer := ⟨b.capacity, []⟩

/-- Push a whole list of samples, stopping at the first thrown error. -/
def pushAll (b : IMURingBuffer) : List IMUSample → IMURingBuffer × Except String Unit
  | [] => (b, .ok ())
  | s :: rest =>
      match b.push s with
      | (b2, .ok _) => pushAll b2 rest
      | (b2, .error e) => (b2, .error e)

/-- The mutating operations a caller can drive a buffer with. -/
inductive BufOp where
  | push (s : IMUSample) : BufOp
  | clear : BufOp

/-- Run one operation (a thrown push aborts the run). -/
def applyBufOp (b : IMURingBuffer) : BufOp → IMURingBuffer × Except String Unit
  | .push s => b.push s
  | .clear => (b.wipe, .ok ())

/-- Run a sequence of operations, stopping at the first thrown error. -/
def runBufOps (b : IMURingBuffer) : List BufOp → IMURingBuffer × Except String Unit
  | [] => (b, .ok ())
  | op :: rest =>
      match applyBufOp b op with
      | (b2, .ok _) => runBufOps b2 rest
      | (b2, .error e) => (b2, .error e)

/-- Adjacent timestamps never decrease. -/
def tsMono : List IMUSample → Bool
  | [] => true
  | [_] => true
  | a :: b :: rest => a.ts ≤ b.ts && tsMono (b :: rest)

/-! ## Schema validation (`packages/types/src/event.ts`)

The dispatcher and error-message assembly below are translated from
`event.ts`.  The two JSON Schema documents it compiles
(`schema/event.v1.json`, `schema/agent_frame.v1.json`) are not in the tree,
so the per-kind checks are *modelled from the spec* (section 3 of the
design document), producing ajv-style `instancePath` + `message` pairs. -/

inductive EnvelopeKind where
  | eventV1 : EnvelopeKind
  | agentFrameV1 : EnvelopeKind
deriving Repr, DecidableEq

/-- The kind's wire string. -/
def EnvelopeKind.name : EnvelopeKind → List Char
  | .eventV1 => "event.v1".data
  | .agentFrameV1 => "agent_frame.v1".data

/-- One ajv validation error: instance path plus message. -/
structure SchemaError where
  ipath : List Char
  msg : List Char
deriving Repr, DecidableEq

/-- An error at `path` saying the value must have the given type. -/
def typeErr (path : List Char) (ty : String) : List SchemaError :=
  [⟨path, ("must be " ++ ty).data⟩]

/-- The ajv error for a missing required property. -/
def missingErr (path name : List Char) : List SchemaError :=
  [⟨path, "must have required property '".data ++ name ++ ['\'']⟩]

/-- Modelled from the spec: a schema leaf requiring a number. -/
def checkNum (path : List Char) : Json → List SchemaError
  | .num _ => []
  | _ => typeErr path "number"

/-- Modelled from the spec: a schema leaf requiring a boolean. -/
def checkBool (path : List Char) : Json → List SchemaError
  | .bool _ => []
  | _ => typeErr path "boolean"

/-- Modelled from the spec: a schema leaf requiring a string. -/
def checkStr (path : List Char) : Json → List SchemaError
  | .str _ => []
  | _ => typeErr path "string"

/-- Check a required property of an object: a missing-property error at the
object's `path`, or the property's own check at `path ++ "/" ++ name`. -/
def reqField (path : List Char) (fields : List (List Char × Json))
    (name : String) (check : List Char → Json → List SchemaError) :
    List SchemaError :=
  match lookupField name.data fields with
  | none => missingErr path name.data
  | some v => check (path ++ '/' :: name.data) v

/-- Check an optional property of an object (absence is fine). -/
def optField (path : List Char) (fields : List (List Char × Json))
    (name : String) (check : List Char → Json → List SchemaError) :
    List SchemaError :=
  match lookupField name.data fields with
  | none => []
  | some v => check (path ++ '/' :: name.data) v

/-- Modelled from the spec: a fixed-length array of numbers
(quaternions, translations, bounds vectors). -/
def checkNumTuple (len : Nat) (path : List Char) : Json → List SchemaError
  | .arr items =>
      if items.length = len then
        (List.range items.length).flatMap fun i =>
          match items[i]? with
          | some v => checkNum (path ++ '/' :: natChars i) v
          | none => []
      else typeErr path ("an array of length " ++ toString len)
  | _ => typeErr path "array"

/-- Modelled from the spec: any JSON object (used for free-form maps). -/
def checkObj (path : List Char) : Json → List SchemaError
  | .obj _ => []
  | _ => typeErr path "object"

/-- Modelled from the spec: the optional `HOLO_FRAME` pose payload. -/
def checkHolo (path : List Char) : Json → List SchemaError
  | .obj fields =>
      reqField path fields "quaternion" (checkNumTuple 4)
        ++ reqField path fields "translation" (checkNumTuple 3)
        ++ reqField path fields "surface" checkStr
        ++ optField path fields "metadata" checkObj
  | _ => typeErr path "object"

/-- Modelled from the spec: the `POINTER_DELTA` 2D delta. -/
def checkPointer (path : List Char) : Json → List SchemaError
  | .obj fields =>
      reqField path fields "dx" checkNum ++ reqField path fields "dy" checkNum
  | _ => typeErr path "object"

/-- Modelled from the spec: the canonical `MinimalParameters` payload unit. -/
def checkMinimal (path : List Char) : Json → List SchemaError
  | .obj fields =>
      reqField path fields "POINTER_DELTA" checkPointer
        ++ reqField path fields "ZOOM_DELTA" checkNum
        ++ reqField path fields "ROT_DELTA" checkNum
        ++ reqField path fields "INPUT_TRIGGER" checkBool
        ++ optField path fields "HOLO_FRAME" checkHolo
  | _ => typeErr path "object"

/-- Modelled from the spec: the envelope's `type` is one of the three tags. -/
def checkEventType (path : List Char) : Json → List SchemaError
  | .str s =>
      if s = "input".data ∨ s = "holo_frame".data ∨ s = "agent".data then []
      else [⟨path, "must be equal to one of the allowed values".data⟩]
  | _ => typeErr path "string"

/-- Modelled from the spec: the `event.v1` schema for `EventEnvelope`. -/
def checkEvent (path : List Char) : Json → List SchemaError
  | .obj fields =>
      reqField path fields "type" checkEventType
        ++ reqField path fields "timestamp" checkNum
        ++ reqField path fields "payload" checkMinimal
  | _ => typeErr path "object"

/-- Modelled from the spec: the `bounds` box of an agent frame. -/
def checkBounds (path : List Char) : Json → List SchemaError
  | .obj fields =>
      reqField path fields "x" checkNum ++ reqField path fields "y" checkNum
        ++ reqField path fields "z" checkNum
  | _ => typeErr path "object"

/-- Modelled from the spec: the `focus` descriptor of an agent frame. -/
def checkFocus (path : List Char) : Json → List SchemaError
  | .obj fields =>
      reqField path fields "path" checkStr ++ optField path fields "hoist" checkBool
  | _ => typeErr path "object"

/-- Modelled from the spec: the `safety` block of an agent frame. -/
def checkSafety (path : List Char) : Json → List SchemaError
  | .obj fields =>
      reqField path fields "spawn_bounds" checkNum
        ++ reqField path fields "rate_limit" checkNum
        ++ optField path fields "rejection_reason" checkStr
  | _ => typeErr path "object"

/-- Modelled from the spec: an array of strings (the `outputs` list). -/
def checkStrList (path : List Char) : Json → List SchemaError
  | .arr items =>
      (List.range items.length).flatMap fun i =>
        match items[i]? with
        | some v => checkStr (path ++ '/' :: natChars i) v
        | none => []
  | _ => typeErr path "array"

/-- Modelled from the spec: the `agent_frame.v1` schema for `AgentFrame`. -/
def checkAgentFrame (path : List Char) : Json → List SchemaError
  | .obj fields =>
      reqField path fields "role" checkStr
        ++ reqField path fields "goal" checkStr
        ++ reqField path fields "sdk_surface" checkStr
        ++ reqField path fields "bounds" checkBounds
        ++ reqField path fields "focus" checkFocus
        ++ reqField path fields "inputs" checkMinimal
        ++ reqField path fields "outputs" checkStrList
        ++ reqField path fields "safety" checkSafety
        ++ optField path fields "telemetry" checkObj
  | _ => typeErr path "object"

/-- The compiled validator for a known kind, applied to a JS value
(`none` models passing `undefined`). -/
def validate (kind : EnvelopeKind) : Option Json → List SchemaError
  | none => typeErr [] "object"
  | some v =>
      match kind with
      | .eventV1 => checkEvent [] v
      | .agentFrameV1 => checkAgentFrame [] v

/-- The thrown message: `instancePath message` pairs joined by `"; "`,
falling back to `validation failed` when the list renders empty. -/
def ajvMessage (errs : List SchemaError) : String :=
  let joined := List.intercalate "; ".data (errs.map fun e => e.ipath ++ ' ' :: e.msg)
  if joined = [] then "validation failed" else ⟨joined⟩

/-- `assertValid(kind, payload)` from `event.ts`: ok, or the joined message. -/
def assertValid (kind : EnvelopeKind) (payload : Option Json) : Except String Unit :=
  match validate kind payload with
  | [] => .ok ()
  | e :: rest => .error (ajvMessage (e :: rest))

/-! ## Signal journal (`SignalJournal` in `src/runtime/bus/journal.ts`) -/

/-- The journal's backing file: `none` when it does not exist. -/
def FileState := Option (List Char)

/-- A journal entry as the TS type declares it: a known kind plus a payload. -/
structure JournalEntry where
  kind : EnvelopeKind
  payload : Json
deriving Repr

/-- The JS object `{kind, payload}` that `JSON.stringify` serializes. -/
def JournalEntry.toJson (e : JournalEntry) : Json :=
  .obj [("kind".data, .str e.kind.name), ("payload".data, e.payload)]

/-- `append(entry)`: validate first and throw without touching the file on
failure; on success append one serialized line plus a newline. -/
def SignalJournal.append (file : FileState) (entry : JournalEntry) :
    FileState × Except String Unit :=
  match validate entry.kind (some entry.payload) with
  | [] => (some ((file.getD []) ++ stringifyJson entry.toJson ++ ['\n']), .ok ())
  | e :: rest => (file, .error (ajvMessage (e :: rest)))

/-- `content.split(/\r?\n/)`: split on `\n`, stripping a preceding `\r`.
`fuel` bounds the recursion and `splitLines` supplies the content length,
always sufficient since every step consumes at least one character. -/
def splitLinesAux : Nat → List Char → List (List Char)
  | 0, _ => [[]]
  | _ + 1, [] => [[]]
  | fuel + 1, c :: rest =>
      if c = '\n' then [] :: splitLinesAux fuel rest
      else if c = '\r' then
        match rest with
        | [] =>
            match splitLinesAux fuel [] with
            | [] => [['\r']]
            | l :: ls => ('\r' :: l) :: ls
        | d :: rest2 =>
            if d = '\n' then [] :: splitLinesAux fuel rest2
            else
              match splitLinesAux fuel (d :: rest2) with
              | [] => [['\r']]
              | l :: ls => ('\r' :: l) :: ls
      else
        match splitLinesAux fuel rest with
        | [] => [[c]]
        | l :: ls => (c :: l) :: ls

/-- `content.split(/\r?\n/)`: split on `\n`, stripping a preceding `\r`. -/
def splitLines (content : List Char) : List (List Char) :=
  splitLinesAux content.length content

/-- The non-empty lines of a file's contents (`.filter(Boolean)`). -/
def meaningfulLines (content : List Char) : List (List Char) :=
  (splitLines content).filter (fun l => l ≠ [])

/-- `readAll()`: an empty sequence for a missing file; otherwise parse every
non-empty line, a single malformed line failing the whole read. -/
def SignalJournal.readAll (file : FileState) : Except String (List Json) :=
  match file with
  | none => .ok []
  | some content => (meaningfulLines content).mapM jsonParse

/-- `clear()`: delete the file if it exists (a no-op if it does not). -/
def SignalJournal.clear (file : FileState) : FileState :=
  match file with
  | some _ => none
  | none => none

/-- A file body made of the given lines, each `\n`-terminated. -/
def joinLines (ls : List (List Char)) : List Char :=
  (ls.map fun l => l ++ ['\n']).flatten

/-- The on-disk image of a journal holding exactly `entries`, oldest first:
one serialized entry per `\n`-terminated line. -/
def journalFile (entries : List JournalEntry) : List Char :=
  joinLines (entries.map fun e => stringifyJson e.toJson)

/-! ## Replay engine (`scripts/replay.ts`) -/

/-- How a JS template literal displays an interpolated value (used by the
`Unknown envelope kind` message). -/
def jsDisplay : Option Json → List Char
  | none => "undefined".data
  | some .null => "null".data
  | some (.bool true) => "true".data
  | some (.bool false) => "false".data
  | some (.num i) => intChars i
  | some (.str s) => s
  | some (.arr _) => "".data
  | some (.obj _) => "[object Object]".data

/-- `validator(kind)` dispatch on a dynamic `kind` value: the two known wire
strings resolve; anything else throws `Unknown envelope kind`. -/
def kindOf (kindVal : Option Json) : Except String EnvelopeKind :=
  match kindVal with
  | some (.str s) =>
      if s = "event.v1".data then .ok .eventV1
      else if s = "agent_frame.v1".data then .ok .agentFrameV1
      else .error ("Unknown envelope kind: " ++ String.mk s)
  | other => .error ("Unknown envelope kind: " ++ String.mk (jsDisplay other))

/-- `assertValid(parsed.kind, parsed.payload)` on a freshly parsed record. -/
def frameAssert (parsed : Json) : Except String Unit := do
  let kind ← kindOf (parsed.getField "kind".data)
  assertValid kind (parsed.getField "payload".data)

/-- `readFrames(path)`: read the file (throwing if it does not exist), parse
every non-empty line and re-validate each record before returning it. -/
def readFrames (file : FileState) : Except String (List Json) :=
  match file with
  | none => .error "ENOENT: no such file or directory"
  | some content =>
      (meaningfulLines content).mapM fun line => do
        let parsed ← jsonParse line
        frameAssert parsed
        pure parsed

/-- The observable connection events `sendFrames` registers handlers for. -/
inductive WsEvent where
  | opened : WsEvent
  | message : WsEvent
  | errored : WsEvent

/-- The state of one `sendFrames` call: what was sent, how many
acknowledgement messages arrived, and whether the promise has settled
(`some true` resolved, `some false` rejected, `none` still pending). -/
structure ReplaySend where
  sentFrames : List Json
  acks : Nat
  settled : Option Bool
deriving Repr

/-- One handler firing: `open` sends every frame in order; each `message`
counts an acknowledgement and resolves once the count reaches the frame
count; `error` rejects.  A settled promise stays settled. -/
def sendFramesStep (frames : List Json) (s : ReplaySend) : WsEvent → ReplaySend
  | .opened => { s with sentFrames := s.sentFrames ++ frames }
  | .message =>
      let n := s.acks + 1
      { s with
        acks := n
        settled := if s.settled = none ∧ frames.length ≤ n then some true else s.settled }
  | .errored =>
      { s with settled := if s.settled = none then some false else s.settled }

/-- The state of a `sendFrames(url, frames)` call after a sequence of
connection events. -/
def sendFramesRun (frames : List Json) (events : List WsEvent) : ReplaySend :=
  events.foldl (sendFramesStep frames) ⟨[], 0, none⟩

/-! ## Ingress ws-server (`services/telemetry/ws-server/index.ts`) -/

/-- `telemetryMessage(message)`: parse, extract `kind` and `payload`,
dispatch the validator on the kind and assert the payload valid. -/
def telemetryMessage (data : List Char) :
    Except String (EnvelopeKind × Option Json) := do
  let parsed ← jsonParse data
  let kind ← kindOf (parsed.getField "kind".data)
  let payload := parsed.getField "payload".data
  assertValid kind payload
  pure (kind, payload)

/-- The success response `{status: "ok", kind, minimal: payload}`.
`JSON.stringify` drops a property holding `undefined`, hence the match. -/
def buildResponse (kind : EnvelopeKind) (payload : Option Json) : Json :=
  .obj ([("status".data, Json.str "ok".data), ("kind".data, Json.str kind.name)]
    ++ (match payload with
        | some p => [("minimal".data, p)]
        | none => []))

/-- The failure response `{status: "error", error: message}`. -/
def errorResponse (message : String) : Json :=
  .obj [("status".data, Json.str "error".data), ("error".data, Json.str message.data)]

/-- The per-message handler: every inbound message gets exactly one
response, and the catch converts any parse or validation throw into an
error response instead of closing the socket. -/
def handleMessage (data : List Char) : Json :=
  match telemetryMessage data with
  | .ok (kind, payload) => buildResponse kind payload
  | .error e => errorResponse e

/-- A whole connection: the server answers the inbound messages one by one
and never closes the socket itself. -/
def handleConnection (msgs : List (List Char)) : List Json :=
  msgs.map handleMessage

/-! ## Port configuration (`services/telemetry/ws-server/index.ts` line 5) -/

/-- The characters `parseInt` skips before the number. -/
def jsSpace (c : Char) : Bool :=
  c = ' ' || c = '\t' || c = '\n' || c = '\r' || c = '\x0b' || c = '\x0c'

/-- JS `parseInt(s, 10)`: skip leading whitespace, take an optional sign and
the longest digit prefix, ignore the rest; `none` models `NaN`. -/
def parseIntJs (s : List Char) : Option Int :=
  let t := s.dropWhile jsSpace
  let signed : Int × List Char :=
    match t with
    | '-' :: r => (-1, r)
    | '+' :: r => (1, r)
    | _ => (1, t)
  match digitRun signed.2 with
  | ([], _) => none
  | (ds, _) => some (signed.1 * decValue ds)

/-- `parseInt(process.env.PORT || "8080", 10)`: an unset or empty variable
falls back to the default string before parsing. -/
def envPort (env : Option (List Char)) : Option Int :=
  parseIntJs (match env with
    | some s => if s = [] then "8080".data else s
    | none => "8080".data)

/-- Modelled from the Node runtime: `server.listen(port)` validates the port
and throws `ERR_SOCKET_BAD_PORT` for `NaN` or an out-of-range number; on
success the server listens on that port. -/
def startServer (env : Option (List Char)) : Except String Int :=
  match envPort env with
  | none => .error "ERR_SOCKET_BAD_PORT"
  | some p => if 0 ≤ p ∧ p ≤ 65535 then .ok p else .error "ERR_SOCKET_BAD_PORT"

/-! ## Concrete fixtures (the payloads of the end-to-end scenarios in the spec) -/

/-- Scenario 1's minimal parameter set. -/
def sampleMinimal : Json :=
  .obj [("POINTER_DELTA".data, .obj [("dx".data, .num 0), ("dy".data, .num 0)]),
        ("ZOOM_DELTA".data, .num 1),
        ("ROT_DELTA".data, .num 0),
        ("INPUT_TRIGGER".data, .bool false)]

/-- A valid `event.v1` envelope (integer-valued fields). -/
def sampleEvent : Json :=
  .obj [("type".data, .str "input".data), ("timestamp".data, .num 5),
        ("payload".data, sampleMinimal)]

/-- The same envelope with `ZOOM_DELTA` missing (end-to-end scenario 4). -/
def sampleEventNoZoom : Json :=
  .obj [("type".data, .str "input".data), ("timestamp".data, .num 5),
        ("payload".data,
          .obj [("POINTER_DELTA".data,
                   .obj [("dx".data, .num 0), ("dy".data, .num 0)]),
                ("ROT_DELTA".data, .num 0),
                ("INPUT_TRIGGER".data, .bool false)])]

/-- Scenario 1's full wire message. -/
def sampleWireMessage : List Char :=
  stringifyJson (.obj [("kind".data, .str "event.v1".data),
                       ("payload".data, sampleEvent)])

/-! # Theorems -/

/-! ## JSON round-trip lemmas -/

theorem digitChar_isDig : ∀ n : Nat, n < 10 → isDig (digitChar n) = true := by decide

theorem digitChar_val : ∀ n : Nat, n < 10 → (digitChar n).toNat - 48 = n := by decide

theorem hexVal_hexDig : ∀ n : Nat, n < 16 → hexVal (hexDig n) = some n := by decide

theorem natCharsAux_irrel : ∀ n f g : Nat, n < f → n < g →
    natCharsAux f n = natCharsAux g n := by
  intro n
  induction n using Nat.strongRecOn with
  | _ n ih =>
      intro f g hf hg
      match f, g with
      | f + 1, g + 1 =>
          by_cases h : n < 10
          · simp only [natCharsAux, if_pos h]
          · simp only [natCharsAux, if_neg h]
            have hd : n / 10 < n := Nat.div_lt_self (by omega) (by omega)
            rw [ih (n / 10) hd f g (by omega) (by omega)]

theorem natChars_small {n : Nat} (h : n < 10) : natChars n = [digitChar n] := by
  unfold natChars
  simp only [natCharsAux, if_pos h]

theorem natChars_large {n : Nat} (h : ¬ n < 10) :
    natChars n = natChars (n / 10) ++ [digitChar (n % 10)] := by
  have hd : n / 10 < n := Nat.div_lt_self (by omega) (by omega)
  conv_lhs => rw [natChars]
  rw [show natCharsAux (n + 1) n
      = natCharsAux n (n / 10) ++ [digitChar (n % 10)] from by
    simp only [natCharsAux, if_neg h]]
  rw [natCharsAux_irrel (n / 10) n (n / 10 + 1) (by omega) (by omega)]
  rfl

theorem natChars_digits : ∀ n : Nat, ∀ c ∈ natChars n, isDig c = true := by
  intro n
  induction n using Nat.strongRecOn with
  | _ n ih =>
      by_cases h : n < 10
      · rw [natChars_small h]
        intro c hc
        rw [List.mem_singleton] at hc
        subst hc
        exact digitChar_isDig n h
      · rw [natChars_large h]
        intro c hc
        rw [List.mem_append] at hc
        cases hc with
        | inl h1 => exact ih (n / 10) (by omega) c h1
        | inr h2 =>
            rw [List.mem_singleton] at h2
            subst h2
            exact digitChar_isDig _ (by omega)

theorem natChars_ne_nil (n : Nat) : natChars n ≠ [] := by
  by_cases h : n < 10
  · rw [natChars_small h]
    simp
  · rw [natChars_large h]
    simp

theorem natChars_shape (n : Nat) :
    ∃ c t, natChars n = c :: t ∧ isDig c = true := by
  cases hn : natChars n with
  | nil => exact absurd hn (natChars_ne_nil n)
  | cons c t =>
      refine ⟨c, t, rfl, ?_⟩
      exact natChars_digits n c (hn ▸ List.mem_cons_self c t)

theorem decValue_snoc (xs : List Char) (c : Char) :
    decValue (xs ++ [c]) = 10 * decValue xs + (c.toNat - 48) := by
  simp [decValue, List.foldl_append]

theorem decValue_natChars : ∀ n : Nat, decValue (natChars n) = n := by
  intro n
  induction n using Nat.strongRecOn with
  | _ n ih =>
      by_cases h : n < 10
      · rw [natChars_small h]
        show decValue ([] ++ [digitChar n]) = n
        rw [decValue_snoc]
        have hv := digitChar_val n h
        have hz : decValue [] = 0 := rfl
        omega
      · rw [natChars_large h, decValue_snoc, ih (n / 10) (by omega)]
        have hv := digitChar_val (n % 10) (by omega)
        omega

theorem digitRun_halt {rest : List Char} (h : headNonDigit rest = true) :
    digitRun rest = ([], rest) := by
  cases rest with
  | nil => rfl
  | cons c t =>
      simp only [headNonDigit, Bool.not_eq_true'] at h
      unfold digitRun
      rw [if_neg (by simp [h])]

theorem digitRun_digits (ds : List Char) (hds : ∀ c ∈ ds, isDig c = true)
    (rest : List Char) (hrest : headNonDigit rest = true) :
    digitRun (ds ++ rest) = (ds, rest) := by
  induction ds with
  | nil => exact digitRun_halt hrest
  | cons c t ih =>
      have hc : isDig c = true := hds c (List.mem_cons_self c t)
      have ht := ih fun x hx => hds x (List.mem_cons_of_mem c hx)
      show digitRun (c :: (t ++ rest)) = (c :: t, rest)
      unfold digitRun
      rw [if_pos hc, ht]

theorem scanStr_esc (c : Char) (acc rest : List Char) :
    scanStr acc (escapeChar c ++ rest) = scanStr (c :: acc) rest := by
  by_cases h1 : c = '"'
  · subst h1
    rfl
  by_cases h2 : c = '\\'
  · subst h2
    rfl
  by_cases h3 : c = '\x08'
  · subst h3
    rfl
  by_cases h4 : c = '\x0c'
  · subst h4
    rfl
  by_cases h5 : c = '\n'
  · subst h5
    rfl
  by_cases h6 : c = '\r'
  · subst h6
    rfl
  by_cases h7 : c = '\t'
  · subst h7
    rfl
  by_cases h8 : c.toNat < 32
  · have hesc : escapeChar c
        = ['\\', 'u', '0', '0', hexDig (c.toNat / 16), hexDig (c.toNat % 16)] := by
      unfold escapeChar
      rw [if_neg h1, if_neg h2, if_neg h3, if_neg h4, if_neg h5, if_neg h6,
        if_neg h7, if_pos h8]
    rw [hesc]
    have hhi := hexVal_hexDig (c.toNat / 16) (by omega)
    have hlo := hexVal_hexDig (c.toNat % 16) (by omega)
    have hstep : scanStr acc ('\\' :: 'u' :: '0' :: '0'
          :: hexDig (c.toNat / 16) :: hexDig (c.toNat % 16) :: rest)
        = (match hexVal '0', hexVal '0', hexVal (hexDig (c.toNat / 16)),
                 hexVal (hexDig (c.toNat % 16)) with
           | some a, some b, some cc, some d =>
               scanStr (Char.ofNat (((a * 16 + b) * 16 + cc) * 16 + d) :: acc) rest
           | _, _, _, _ =>
               (.error "Bad Unicode escape in JSON"
                 : Except String (List Char × List Char))) := rfl
    rw [List.cons_append]
    rw [show ('u' :: '0' :: '0' :: hexDig (c.toNat / 16)
          :: hexDig (c.toNat % 16) :: []) ++ rest
        = 'u' :: '0' :: '0' :: hexDig (c.toNat / 16)
          :: hexDig (c.toNat % 16) :: rest from rfl]
    rw [hstep, hhi, hlo]
    show scanStr (Char.ofNat
        (((0 * 16 + 0) * 16 + c.toNat / 16) * 16 + c.toNat % 16) :: acc) rest = _
    have harith : ((0 * 16 + 0) * 16 + c.toNat / 16) * 16 + c.toNat % 16
        = c.toNat := by omega
    rw [harith, Char.ofNat_toNat]
  · have hesc : escapeChar c = [c] := by
      unfold escapeChar
      rw [if_neg h1, if_neg h2, if_neg h3, if_neg h4, if_neg h5, if_neg h6,
        if_neg h7, if_neg h8]
    rw [hesc]
    show scanStr acc (c :: rest) = scanStr (c :: acc) rest
    conv_lhs => rw [scanStr.eq_def]
    simp only []
    rw [if_neg h1, if_neg h2]

theorem scanStr_quoted (s : List Char) : ∀ acc rest : List Char,
    scanStr acc (s.flatMap escapeChar ++ '"' :: rest)
      = .ok (acc.reverse ++ s, rest) := by
  induction s with
  | nil =>
      intro acc rest
      simp only [List.flatMap_nil, List.nil_append, List.append_nil]
      rw [scanStr.eq_def]
      rfl
  | cons c t ih =>
      intro acc rest
      rw [List.flatMap_cons, List.append_assoc, scanStr_esc, ih]
      simp

theorem isDig_ne {c : Char} (h : isDig c = true) :
    c ≠ 'n' ∧ c ≠ 't' ∧ c ≠ 'f' ∧ c ≠ '"' ∧ c ≠ '[' ∧ c ≠ '{' ∧ c ≠ '-'
      ∧ c ≠ ']' ∧ c ≠ '}' := by
  refine ⟨?_, ?_, ?_, ?_, ?_, ?_, ?_, ?_, ?_⟩ <;>
    first
      | (intro heq; rw [heq] at h; exact absurd h (by decide))

theorem stringify_shape (j : Json) :
    ∃ c t, stringifyJson j = c :: t ∧ c ≠ ']' := by
  cases j with
  | null => exact ⟨'n', _, rfl, by decide⟩
  | bool b =>
      cases b with
      | true => exact ⟨'t', _, rfl, by decide⟩
      | false => exact ⟨'f', _, rfl, by decide⟩
  | str s => exact ⟨'"', _, rfl, by decide⟩
  | arr items => exact ⟨'[', _, rfl, by decide⟩
  | obj fields => exact ⟨'{', _, rfl, by decide⟩
  | num i =>
      show ∃ c t, intChars i = c :: t ∧ c ≠ ']'
      unfold intChars
      by_cases hneg : i < 0
      · rw [if_pos hneg]
        exact ⟨'-', _, rfl, by decide⟩
      · rw [if_neg hneg]
        obtain ⟨c, t, hct, hdig⟩ := natChars_shape i.natAbs
        exact ⟨c, t, hct, (isDig_ne hdig).2.2.2.2.2.2.2.1⟩

theorem stringify_length_pos (j : Json) : 1 ≤ (stringifyJson j).length := by
  obtain ⟨c, t, hct, _⟩ := stringify_shape j
  rw [hct]
  simp

theorem stringifyItems_shape (x : Json) (xs : List Json) :
    ∃ c t, stringifyItems (x :: xs) = c :: t ∧ c ≠ ']' := by
  obtain ⟨c, t, hct, hne⟩ := stringify_shape x
  cases xs with
  | nil => exact ⟨c, t, hct, hne⟩
  | cons y ys =>
      refine ⟨c, t ++ ',' :: stringifyItems (y :: ys), ?_, hne⟩
      show stringifyJson x ++ ',' :: stringifyItems (y :: ys) = _
      rw [hct]
      rfl

theorem stringifyFields_shape (k : List Char) (v : Json)
    (fs : List (List Char × Json)) :
    ∃ t, stringifyFields ((k, v) :: fs) = '"' :: t := by
  cases fs with
  | nil => exact ⟨_, rfl⟩
  | cons kv more => exact ⟨_, rfl⟩

theorem parseVal_negStep (fuel : Nat) (t : List Char) :
    parseJsonVal (fuel + 1) ('-' :: t)
      = (match digitRun t with
         | ([], _) => .error "Bad number in JSON"
         | (ds, u) => .ok (.num (-(decValue ds : Int)), u)) := rfl

theorem digit_char_cases {c : Char} (hdig : isDig c = true) :
    c = '0' ∨ c = '1' ∨ c = '2' ∨ c = '3' ∨ c = '4' ∨ c = '5'
      ∨ c = '6' ∨ c = '7' ∨ c = '8' ∨ c = '9' := by
  have hb : 48 ≤ c.toNat ∧ c.toNat ≤ 57 := by
    have h := hdig
    simp only [isDig, Bool.and_eq_true, decide_eq_true_eq] at h
    exact h
  have h0 : c = Char.ofNat c.toNat := (Char.ofNat_toNat c).symm
  have hn : c.toNat = 48 ∨ c.toNat = 49 ∨ c.toNat = 50 ∨ c.toNat = 51
      ∨ c.toNat = 52 ∨ c.toNat = 53 ∨ c.toNat = 54 ∨ c.toNat = 55
      ∨ c.toNat = 56 ∨ c.toNat = 57 := by omega
  rcases hn with h | h | h | h | h | h | h | h | h | h <;> rw [h] at h0
  · exact Or.inl h0
  · exact Or.inr (Or.inl h0)
  · exact Or.inr (Or.inr (Or.inl h0))
  · exact Or.inr (Or.inr (Or.inr (Or.inl h0)))
  · exact Or.inr (Or.inr (Or.inr (Or.inr (Or.inl h0))))
  · exact Or.inr (Or.inr (Or.inr (Or.inr (Or.inr (Or.inl h0)))))
  · exact Or.inr (Or.inr (Or.inr (Or.inr (Or.inr (Or.inr (Or.inl h0))))))
  · exact Or.inr (Or.inr (Or.inr (Or.inr (Or.inr (Or.inr (Or.inr (Or.inl h0)))))))
  · exact Or.inr (Or.inr (Or.inr (Or.inr (Or.inr (Or.inr (Or.inr (Or.inr
      (Or.inl h0))))))))
  · exact Or.inr (Or.inr (Or.inr (Or.inr (Or.inr (Or.inr (Or.inr (Or.inr
      (Or.inr h0))))))))

theorem parseVal_numStep (fuel : Nat) (c : Char) (t : List Char)
    (hdig : isDig c = true) :
    parseJsonVal (fuel + 1) (c :: t)
      = .ok (.num (decValue (digitRun (c :: t)).1 : Int), (digitRun (c :: t)).2) := by
  rcases digit_char_cases hdig with h | h | h | h | h | h | h | h | h | h <;>
    (subst h; rfl)

theorem parseVal_strScan (fuel : Nat) (r u s : List Char)
    (hscan : scanStr [] r = .ok (s, u)) :
    parseJsonVal (fuel + 1) ('"' :: r) = .ok (.str s, u) := by
  have hstep : parseJsonVal (fuel + 1) ('"' :: r)
      = (match scanStr [] r with
         | .ok (s2, t2) => .ok (.str s2, t2)
         | .error e => .error e) := rfl
  rw [hstep, hscan]

theorem parseVal_arrStep (fuel : Nat) (d : Char) (t : List Char) (hne : d ≠ ']') :
    parseJsonVal (fuel + 1) ('[' :: d :: t)
      = (match parseJsonItems fuel (d :: t) with
         | .ok (items, u) => .ok (.arr items, u)
         | .error e => .error e) := by
  show (if d = ']' then (.ok (.arr [], t) : Except String (Json × List Char))
        else match parseJsonItems fuel (d :: t) with
             | .ok (items, u) => .ok (.arr items, u)
             | .error e => .error e) = _
  rw [if_neg hne]

theorem parseVal_objStep (fuel : Nat) (d : Char) (t : List Char) (hne : d ≠ '}') :
    parseJsonVal (fuel + 1) ('{' :: d :: t)
      = (match parseJsonFields fuel (d :: t) with
         | .ok (fields, u) => .ok (.obj fields, u)
         | .error e => .error e) := by
  show (if d = '}' then (.ok (.obj [], t) : Except String (Json × List Char))
        else match parseJsonFields fuel (d :: t) with
             | .ok (fields, u) => .ok (.obj fields, u)
             | .error e => .error e) = _
  rw [if_neg hne]

theorem parseItems_step (fuel : Nat) (input : List Char) :
    parseJsonItems (fuel + 1) input
      = (match parseJsonVal fuel input with
         | .error e => .error e
         | .ok (v, r) =>
             match r with
             | ',' :: r2 =>
                 match parseJsonItems fuel r2 with
                 | .ok (vs, u) => .ok (v :: vs, u)
                 | .error e => .error e
             | ']' :: r2 => .ok ([v], r2)
             | _ => .error "Expected comma or bracket after JSON array element") := rfl

theorem parseFields_scan (fuel : Nat) (r r2 key : List Char)
    (hscan : scanStr [] r = .ok (key, ':' :: r2)) :
    parseJsonFields (fuel + 1) ('"' :: r)
      = (match parseJsonVal fuel r2 with
         | .error e => .error e
         | .ok (v, r3) =>
             match r3 with
             | ',' :: r4 =>
                 match parseJsonFields fuel r4 with
                 | .ok (kvs, u) => .ok ((key, v) :: kvs, u)
                 | .error e => .error e
             | '}' :: r4 => .ok ([(key, v)], r4)
             | _ => .error "Expected comma or brace after JSON member") := by
  have hstep : parseJsonFields (fuel + 1) ('"' :: r)
      = (match scanStr [] r with
         | .error e => .error e
         | .ok (key2, r5) =>
             match r5 with
             | ':' :: r6 =>
                 match parseJsonVal fuel r6 with
                 | .error e => .error e
                 | .ok (v, r3) =>
                     match r3 with
                     | ',' :: r4 =>
                         match parseJsonFields fuel r4 with
                         | .ok (kvs, u) => .ok ((key2, v) :: kvs, u)
                         | .error e => .error e
                     | '}' :: r4 => .ok ([(key2, v)], r4)
                     | _ => .error "Expected comma or brace after JSON member"
             | _ => .error "Expected colon in JSON object") := rfl
  rw [hstep, hscan]
  rfl

theorem quoteStr_parts (s : List Char) (x : List Char) :
    quoteStr s ++ x = '"' :: (s.flatMap escapeChar ++ '"' :: x) := by
  show ('"' :: (s.flatMap escapeChar ++ ['"'])) ++ x = _
  simp [List.append_assoc]

mutual

theorem stringify_parse_val : ∀ (j : Json) (fuel : Nat) (rest : List Char),
    (stringifyJson j).length < fuel → headNonDigit rest = true →
    parseJsonVal fuel (stringifyJson j ++ rest) = .ok (j, rest)
  | .null, fuel, rest, hfu, _ => by
      match fuel with
      | 0 => exact absurd hfu (by decide)
      | f2 + 1 => rfl
  | .bool true, fuel, rest, hfu, _ => by
      match fuel with
      | 0 => exact absurd hfu (by decide)
      | f2 + 1 => rfl
  | .bool false, fuel, rest, hfu, _ => by
      match fuel with
      | 0 => exact absurd hfu (by decide)
      | f2 + 1 => rfl
  | .num i, fuel, rest, hfu, hr => by
      match fuel with
      | 0 => exact absurd hfu (Nat.not_lt_zero _)
      | f2 + 1 =>
          show parseJsonVal (f2 + 1) (intChars i ++ rest) = .ok (.num i, rest)
          by_cases hneg : i < 0
          · have hchars : intChars i = '-' :: natChars i.natAbs := by
              unfold intChars
              rw [if_pos hneg]
            rw [hchars, List.cons_append, parseVal_negStep]
            have hdr : digitRun (natChars i.natAbs ++ rest)
                = (natChars i.natAbs, rest) :=
              digitRun_digits _ (natChars_digits _) rest hr
            rw [hdr]
            obtain ⟨c, t, hct, _⟩ := natChars_shape i.natAbs
            rw [hct]
            have hval : decValue (c :: t) = i.natAbs := by
              rw [← hct]
              exact decValue_natChars _
            show Except.ok (Json.num (-(decValue (c :: t) : Int)), rest)
                = Except.ok (Json.num i, rest)
            rw [hval]
            have hcast : -(i.natAbs : Int) = i := by omega
            rw [hcast]
          · have hchars : intChars i = natChars i.natAbs := by
              unfold intChars
              rw [if_neg hneg]
            obtain ⟨c, t, hct, hdig⟩ := natChars_shape i.natAbs
            rw [hchars, hct, List.cons_append, parseVal_numStep f2 c _ hdig]
            have hdr : digitRun (c :: (t ++ rest)) = (c :: t, rest) := by
              have := digitRun_digits (c :: t)
                (by rw [← hct]; exact natChars_digits _) rest hr
              rw [List.cons_append] at this
              exact this
            rw [hdr]
            have hval : decValue (c :: t) = i.natAbs := by
              rw [← hct]
              exact decValue_natChars _
            show Except.ok (Json.num (decValue (c :: t) : Int), rest) = _
            rw [hval]
            have : (i.natAbs : Int) = i := by omega
            rw [this]
  | .str s, fuel, rest, hfu, _ => by
      match fuel with
      | 0 => exact absurd hfu (Nat.not_lt_zero _)
      | f2 + 1 =>
          have harg : stringifyJson (.str s) ++ rest
              = '"' :: (s.flatMap escapeChar ++ '"' :: rest) :=
            quoteStr_parts s rest
          rw [harg]
          exact parseVal_strScan f2 _ _ _ (by simpa using scanStr_quoted s [] rest)
  | .arr [], fuel, rest, hfu, _ => by
      match fuel with
      | 0 => exact absurd hfu (by decide)
      | f2 + 1 => rfl
  | .arr (x :: xs), fuel, rest, hfu, _ => by
      match fuel with
      | 0 => exact absurd hfu (Nat.not_lt_zero _)
      | f2 + 1 =>
          obtain ⟨d, t0, hd, hdne⟩ := stringifyItems_shape x xs
          have harg : stringifyJson (.arr (x :: xs)) ++ rest
              = '[' :: (d :: (t0 ++ ']' :: rest)) := by
            show ('[' :: (stringifyItems (x :: xs) ++ [']'])) ++ rest = _
            rw [hd]
            simp [List.append_assoc]
          rw [harg, parseVal_arrStep f2 d _ hdne]
          have hback : d :: (t0 ++ ']' :: rest)
              = stringifyItems (x :: xs) ++ ']' :: rest := by
            rw [hd]
            rfl
          rw [hback]
          have hlen : (stringifyItems (x :: xs)).length + 1 < f2 := by
            have hfu2 : (stringifyItems (x :: xs)).length + 2 < f2 + 1 := by
              have : (stringifyJson (.arr (x :: xs))).length
                  = (stringifyItems (x :: xs)).length + 2 := by
                show ('[' :: (stringifyItems (x :: xs) ++ [']'])).length = _
                simp
              omega
            omega
          rw [stringify_parse_items x xs f2 rest hlen]
  | .obj [], fuel, rest, hfu, _ => by
      match fuel with
      | 0 => exact absurd hfu (by decide)
      | f2 + 1 => rfl
  | .obj ((k, v) :: fs), fuel, rest, hfu, _ => by
      match fuel with
      | 0 => exact absurd hfu (Nat.not_lt_zero _)
      | f2 + 1 =>
          obtain ⟨t0, hd⟩ := stringifyFields_shape k v fs
          have harg : stringifyJson (.obj ((k, v) :: fs)) ++ rest
              = '{' :: ('"' :: (t0 ++ '}' :: rest)) := by
            show ('{' :: (stringifyFields ((k, v) :: fs) ++ ['}'])) ++ rest = _
            rw [hd]
            simp [List.append_assoc]
          rw [harg, parseVal_objStep f2 '"' _ (by decide)]
          have hback : '"' :: (t0 ++ '}' :: rest)
              = stringifyFields ((k, v) :: fs) ++ '}' :: rest := by
            rw [hd]
            rfl
          rw [hback]
          have hlen : (stringifyFields ((k, v) :: fs)).length + 1 < f2 := by
            have : (stringifyJson (.obj ((k, v) :: fs))).length
                = (stringifyFields ((k, v) :: fs)).length + 2 := by
              show ('{' :: (stringifyFields ((k, v) :: fs) ++ ['}'])).length = _
              simp
            omega
          rw [stringify_parse_fields k v fs f2 rest hlen]
termination_by j _ _ _ _ => sizeOf j

theorem stringify_parse_items : ∀ (x : Json) (xs : List Json) (fuel : Nat)
    (rest : List Char),
    (stringifyItems (x :: xs)).length + 1 < fuel →
    parseJsonItems fuel (stringifyItems (x :: xs) ++ ']' :: rest)
      = .ok (x :: xs, rest)
  | x, [], fuel, rest, hfu => by
      match fuel with
      | 0 => exact absurd hfu (Nat.not_lt_zero _)
      | f2 + 1 =>
          have hone : stringifyItems [x] = stringifyJson x := rfl
          rw [parseItems_step, hone]
          have hlen : (stringifyJson x).length < f2 := by
            rw [hone] at hfu
            omega
          rw [stringify_parse_val x f2 (']' :: rest) hlen (by rfl)]
          rfl
  | x, y :: ys, fuel, rest, hfu => by
      match fuel with
      | 0 => exact absurd hfu (Nat.not_lt_zero _)
      | f2 + 1 =>
          have hsplit : stringifyItems (x :: y :: ys)
              = stringifyJson x ++ ',' :: stringifyItems (y :: ys) := rfl
          have hlens : (stringifyItems (x :: y :: ys)).length
              = (stringifyJson x).length + 1 + (stringifyItems (y :: ys)).length := by
            rw [hsplit]
            simp only [List.length_append, List.length_cons]
            omega
          have harg : stringifyItems (x :: y :: ys) ++ ']' :: rest
              = stringifyJson x
                  ++ (',' :: (stringifyItems (y :: ys) ++ ']' :: rest)) := by
            rw [hsplit]
            simp [List.append_assoc]
          have hlx : (stringifyJson x).length < f2 := by omega
          have hrec : (stringifyItems (y :: ys)).length + 1 < f2 := by
            have := stringify_length_pos x
            omega
          rw [parseItems_step, harg, stringify_parse_val x f2 _ hlx (by rfl)]
          show (match parseJsonItems f2 (stringifyItems (y :: ys) ++ ']' :: rest) with
                | .ok (vs, u) => Except.ok (x :: vs, u)
                | .error e => Except.error e)
              = Except.ok (x :: y :: ys, rest)
          rw [stringify_parse_items y ys f2 rest hrec]
termination_by x xs _ _ _ => sizeOf x + sizeOf xs

theorem stringify_parse_fields : ∀ (k : List Char) (v : Json)
    (fs : List (List Char × Json)) (fuel : Nat) (rest : List Char),
    (stringifyFields ((k, v) :: fs)).length + 1 < fuel →
    parseJsonFields fuel (stringifyFields ((k, v) :: fs) ++ '}' :: rest)
      = .ok ((k, v) :: fs, rest)
  | k, v, [], fuel, rest, hfu => by
      match fuel with
      | 0 => exact absurd hfu (Nat.not_lt_zero _)
      | f2 + 1 =>
          have hone : stringifyFields [(k, v)]
              = quoteStr k ++ ':' :: stringifyJson v := rfl
          have harg : stringifyFields [(k, v)] ++ '}' :: rest
              = '"' :: (k.flatMap escapeChar
                  ++ '"' :: (':' :: (stringifyJson v ++ '}' :: rest))) := by
            rw [hone]
            rw [show (quoteStr k ++ ':' :: stringifyJson v) ++ '}' :: rest
                = quoteStr k ++ (':' :: (stringifyJson v ++ '}' :: rest)) from by
              simp [List.append_assoc]]
            rw [quoteStr_parts]
          have hlv : (stringifyJson v).length < f2 := by
            have hqlen : (stringifyFields [(k, v)]).length
                = (quoteStr k).length + 1 + (stringifyJson v).length := by
              rw [hone]
              simp only [List.length_append, List.length_cons]
              omega
            have hq2 : 2 ≤ (quoteStr k).length := by
              show 2 ≤ ('"' :: (k.flatMap escapeChar ++ ['"'])).length
              simp
            omega
          rw [harg,
            parseFields_scan f2 _ _ _ (by simpa using scanStr_quoted k [] _),
            stringify_parse_val v f2 ('}' :: rest) hlv (by rfl)]
          rfl
  | k, v, (k2, v2) :: more, fuel, rest, hfu => by
      match fuel with
      | 0 => exact absurd hfu (Nat.not_lt_zero _)
      | f2 + 1 =>
              have hsplit : stringifyFields ((k, v) :: (k2, v2) :: more)
                  = quoteStr k ++ ':' :: stringifyJson v
                      ++ ',' :: stringifyFields ((k2, v2) :: more) := rfl
              have harg : stringifyFields ((k, v) :: (k2, v2) :: more) ++ '}' :: rest
                  = '"' :: (k.flatMap escapeChar
                      ++ '"' :: (':' :: (stringifyJson v
                          ++ ',' :: (stringifyFields ((k2, v2) :: more)
                              ++ '}' :: rest)))) := by
                rw [hsplit]
                rw [show (quoteStr k ++ ':' :: stringifyJson v
                        ++ ',' :: stringifyFields ((k2, v2) :: more)) ++ '}' :: rest
                    = quoteStr k ++ (':' :: (stringifyJson v
                        ++ ',' :: (stringifyFields ((k2, v2) :: more)
                            ++ '}' :: rest))) from by
                  simp [List.append_assoc]]
                rw [quoteStr_parts]
              have hlens : (stringifyFields ((k, v) :: (k2, v2) :: more)).length
                  = (quoteStr k).length + 1 + (stringifyJson v).length + 1
                      + (stringifyFields ((k2, v2) :: more)).length := by
                rw [hsplit]
                simp only [List.length_append, List.length_cons]
                omega
              have hq2 : 2 ≤ (quoteStr k).length := by
                show 2 ≤ ('"' :: (k.flatMap escapeChar ++ ['"'])).length
                simp
              have hlv : (stringifyJson v).length < f2 := by omega
              have hrec : (stringifyFields ((k2, v2) :: more)).length + 1 < f2 := by
                have := stringify_length_pos v
                omega
              rw [harg,
                parseFields_scan f2 _ _ _ (by simpa using scanStr_quoted k [] _),
                stringify_parse_val v f2 _ hlv (by rfl)]
              show (match parseJsonFields f2
                        (stringifyFields ((k2, v2) :: more) ++ '}' :: rest) with
                    | .ok (kvs, u) => Except.ok ((k, v) :: kvs, u)
                    | .error e => Except.error e)
                  = Except.ok ((k, v) :: (k2, v2) :: more, rest)
              rw [stringify_parse_fields k2 v2 more f2 rest hrec]
termination_by k v fs _ _ _ => sizeOf v + sizeOf fs

end

/-- The codec round-trip: parsing a serialized value recovers it exactly. -/
theorem jsonParse_stringify (j : Json) : jsonParse (stringifyJson j) = .ok j := by
  unfold jsonParse
  have h := stringify_parse_val j ((stringifyJson j).length + 1) [] (by omega) (by rfl)
  rw [List.append_nil] at h
  rw [h]

/-! ## Ring buffer lemmas -/

theorem tsMono_of_cons {a : IMUSample} {rest : List IMUSample}
    (h : tsMono (a :: rest) = true) : tsMono rest = true := by
  cases rest with
  | nil => rfl
  | cons b t =>
      have := h
      simp only [tsMono, Bool.and_eq_true] at this
      exact this.2

theorem tsMono_append_right {xs ys : List IMUSample}
    (h : tsMono (xs ++ ys) = true) : tsMono ys = true := by
  induction xs with
  | nil => exact h
  | cons a t ih => exact ih (tsMono_of_cons h)

theorem tsMono_append_mid {xs : List IMUSample} {s : IMUSample}
    {ys : List IMUSample} (t : IMUSample)
    (hlast : xs.getLast? = some t) (h : tsMono (xs ++ s :: ys) = true) :
    t.ts ≤ s.ts := by
  induction xs with
  | nil => simp at hlast
  | cons a xt ih =>
      cases xt with
      | nil =>
          simp only [List.getLast?_singleton, Option.some.injEq] at hlast
          subst hlast
          simp only [List.cons_append, List.nil_append, tsMono,
            Bool.and_eq_true, decide_eq_true_eq] at h
          exact h.1
      | cons b bt =>
          have hlast2 : (b :: bt).getLast? = some t := by
            simpa [List.getLast?_cons_cons] using hlast
          exact ih hlast2 (tsMono_of_cons h)

theorem tsMono_snoc {xs : List IMUSample} {s : IMUSample}
    (hmono : tsMono xs = true)
    (hlast : ∀ t, xs.getLast? = some t → t.ts ≤ s.ts) :
    tsMono (xs ++ [s]) = true := by
  induction xs with
  | nil => rfl
  | cons a xt ih =>
      cases xt with
      | nil =>
          simp only [List.cons_append, List.nil_append, tsMono,
            Bool.and_eq_true, decide_eq_true_eq]
          exact ⟨hlast a rfl, trivial⟩
      | cons b bt =>
          simp only [tsMono, Bool.and_eq_true, decide_eq_true_eq] at hmono
          have tail := ih hmono.2 (fun t ht => hlast t (by
            simpa [List.getLast?_cons_cons] using ht))
          simp only [List.cons_append, tsMono, Bool.and_eq_true, decide_eq_true_eq]
          exact ⟨hmono.1, by simpa using tail⟩

theorem pushAll_drop_oldest (samples : List IMUSample) :
    ∀ b : IMURingBuffer, 0 < b.capacity → b.buffer.length ≤ b.capacity →
    tsMono (b.buffer ++ samples) = true →
    pushAll b samples =
      (⟨b.capacity,
        (b.buffer ++ samples).drop (b.buffer.length + samples.length - b.capacity)⟩,
       Except.ok ()) := by
  induction samples with
  | nil =>
      intro b _ hlen _
      simp only [pushAll, List.append_nil, List.length_nil, Nat.add_zero]
      have hz : b.buffer.length - b.capacity = 0 := by omega
      rw [hz, List.drop_zero]
  | cons s rest ih =>
      intro b hcap hlen hmono
      have hok : b.push s = (b.accept s, Except.ok ()) := by
        unfold IMURingBuffer.push
        match hcase : b.buffer.getLast? with
        | none => rfl
        | some tail =>
            have hle : tail.ts ≤ s.ts := tsMono_append_mid tail hcase hmono
            simp only [if_neg (by omega : ¬ s.ts < tail.ts)]
      rw [pushAll, hok]
      by_cases hgrow : b.capacity < (b.buffer ++ [s]).length
      · -- the buffer was full: the head is evicted
        have hfull : b.buffer.length = b.capacity := by
          simp only [List.length_append, List.length_singleton] at hgrow
          omega
        obtain ⟨hd, bt, hbuf⟩ : ∃ hd bt, b.buffer = hd :: bt := by
          cases hbufc : b.buffer with
          | nil =>
              rw [hbufc] at hfull
              simp at hfull
              omega
          | cons hd bt => exact ⟨hd, bt, rfl⟩
        have haccept : b.accept s = ⟨b.capacity, bt ++ [s]⟩ := by
          unfold IMURingBuffer.accept
          rw [if_pos hgrow, hbuf]
          simp only [List.cons_append, List.tail_cons]
        rw [haccept]
        show pushAll ⟨b.capacity, bt ++ [s]⟩ rest = _
        have hmono2 : tsMono ((bt ++ [s]) ++ rest) = true := by
          have hstep : tsMono (bt ++ s :: rest) = true := by
            have hall := hmono
            rw [hbuf] at hall
            exact tsMono_of_cons (by simpa using hall)
          simpa [List.append_assoc] using hstep
        have hlen2 : (bt ++ [s]).length ≤ b.capacity := by
          rw [hbuf] at hfull
          simp only [List.length_cons] at hfull
          simp only [List.length_append, List.length_singleton]
          omega
        rw [ih ⟨b.capacity, bt ++ [s]⟩ hcap hlen2 hmono2]
        have hbt : bt.length + 1 = b.capacity := by
          rw [hbuf] at hfull
          simpa using hfull
        have hcount : (bt ++ [s]).length + rest.length - b.capacity
            = rest.length := by
          simp only [List.length_append, List.length_singleton]
          omega
        have hcount2 : b.buffer.length + (s :: rest).length - b.capacity
            = rest.length + 1 := by
          rw [hbuf]
          simp only [List.length_cons]
          omega
        rw [hcount, hcount2, hbuf]
        have hsplit : ((hd :: bt) ++ s :: rest).drop (rest.length + 1)
            = ((bt ++ [s]) ++ rest).drop rest.length := by
          have hra : (bt ++ [s]) ++ rest = bt ++ s :: rest := by
            simp [List.append_assoc]
          rw [List.cons_append, List.drop_succ_cons, hra]
        rw [hsplit]
      · -- still within capacity: nothing evicted
        have haccept : b.accept s = ⟨b.capacity, b.buffer ++ [s]⟩ := by
          unfold IMURingBuffer.accept
          rw [if_neg hgrow]
        rw [haccept]
        show pushAll ⟨b.capacity, b.buffer ++ [s]⟩ rest = _
        have hmono2 : tsMono ((b.buffer ++ [s]) ++ rest) = true := by
          simpa [List.append_assoc] using hmono
        have hlen2 : (b.buffer ++ [s]).length ≤ b.capacity := by
          simp only [List.length_append, List.length_singleton] at hgrow ⊢
          omega
        rw [ih ⟨b.capacity, b.buffer ++ [s]⟩ hcap hlen2 hmono2]
        have h1 : (b.buffer ++ [s]).length = b.buffer.length + 1 := by simp
        have hcount : (b.buffer ++ [s]).length + rest.length - b.capacity
            = b.buffer.length + (s :: rest).length - b.capacity := by
          rw [h1, List.length_cons]
          omega
        rw [hcount]
        have hra : (b.buffer ++ [s]) ++ rest = b.buffer ++ s :: rest := by
          simp [List.append_assoc]
        rw [hra]

/-- C1: pushing `n ≥ c` monotonically-ordered samples into a buffer of
capacity `c > 0` succeeds; `snapshot()` then has length `min n c`, its last
element is the most recently pushed sample, and the survivors are exactly
the final `c` samples — the `n - c` oldest were evicted, strictly FIFO. -/
theorem ringBuffer_fifo_eviction (c : Nat) (hc : 0 < c)
    (samples : List IMUSample) (hmono : tsMono samples = true)
    (hn : c ≤ samples.length) (b0 : IMURingBuffer)
    (hcreate : IMURingBuffer.create (c : Int) = .ok b0) :
    ∃ b : IMURingBuffer,
      pushAll b0 samples = (b, Except.ok ()) ∧
      b.snapshot = samples.drop (samples.length - c) ∧
      b.snapshot.length = min samples.length c ∧
      b.snapshot.getLast? = samples.getLast? := by
  have hb0 : b0 = ⟨c, []⟩ := by
    unfold IMURingBuffer.create at hcreate
    rw [if_neg (by omega : ¬ (c : Int) ≤ 0)] at hcreate
    cases hcreate
    simp
  subst hb0
  have hrun := pushAll_drop_oldest samples ⟨c, []⟩ hc (by simp) (by simpa using hmono)
  simp only [List.nil_append, List.length_nil, Nat.zero_add] at hrun
  refine ⟨_, hrun, rfl, ?_, ?_⟩
  · simp only [IMURingBuffer.snapshot, List.length_drop]
    omega
  · simp only [IMURingBuffer.snapshot]
    have hsplit : samples = samples.take (samples.length - c)
        ++ samples.drop (samples.length - c) := (List.take_append_drop _ _).symm
    have hne : samples.drop (samples.length - c) ≠ [] := by
      have : (samples.drop (samples.length - c)).length = c := by
        simp only [List.length_drop]
        omega
      intro hnil
      rw [hnil] at this
      simp at this
      omega
    conv_rhs => rw [hsplit]
    exact (List.getLast?_append_of_ne_nil _ hne).symm

/-- C1 witness: capacity 2, samples at ts 1, 2, 3 (end-to-end scenario 3):
the snapshot is the ts 2 and ts 3 samples, the ts 1 sample was evicted. -/
theorem ringBuffer_fifo_eviction_witness :
    ∃ b : IMURingBuffer,
      pushAll ⟨2, []⟩
        [⟨1, (0, 0, 0, 1), none, none⟩, ⟨2, (0, 1, 0, 0), none, none⟩,
         ⟨3, (1, 0, 0, 0), none, none⟩] = (b, Except.ok ()) ∧
      b.snapshot = [⟨2, (0, 1, 0, 0), none, none⟩, ⟨3, (1, 0, 0, 0), none, none⟩] ∧
      b.snapshot.length = 2 ∧
      b.snapshot.getLast? = some ⟨3, (1, 0, 0, 0), none, none⟩ := by
  obtain ⟨b, h1, h2, h3, h4⟩ :=
    ringBuffer_fifo_eviction 2 (by decide)
      [⟨1, (0, 0, 0, 1), none, none⟩, ⟨2, (0, 1, 0, 0), none, none⟩,
       ⟨3, (1, 0, 0, 0), none, none⟩]
      (by decide) (by decide) ⟨2, []⟩ rfl
  exact ⟨b, h1, h2.trans (by rfl), h3.trans (by rfl), h4.trans (by rfl)⟩

/-- C4: on a non-empty buffer, `push` of a sample whose `ts` is strictly
below the tail's throws the out-of-order error with the buffer unchanged,
while a push whose `ts` equals the tail's succeeds (ties permitted). -/
theorem push_out_of_order_ties_ok (b : IMURingBuffer) (s tail : IMUSample)
    (hlast : b.buffer.getLast? = some tail) :
    (s.ts < tail.ts →
      b.push s = (b, Except.error "samples must be appended in monotonic order")) ∧
    (s.ts = tail.ts → b.push s = (b.accept s, Except.ok ())) := by
  unfold IMURingBuffer.push
  constructor
  · intro hlt
    simp only [hlast, if_pos hlt]
  · intro heq
    simp only [hlast, if_neg (by omega : ¬ s.ts < tail.ts)]

/-- C4 witness: with tail ts 5, pushing ts 4 throws with the buffer kept,
and pushing another ts 5 sample succeeds. -/
theorem push_out_of_order_ties_ok_witness :
    (IMURingBuffer.push ⟨4, [⟨5, (0, 0, 0, 1), none, none⟩]⟩
        ⟨4, (0, 0, 0, 1), none, none⟩
      = (⟨4, [⟨5, (0, 0, 0, 1), none, none⟩]⟩,
         Except.error "samples must be appended in monotonic order")) ∧
    (IMURingBuffer.push ⟨4, [⟨5, (0, 0, 0, 1), none, none⟩]⟩
        ⟨5, (0, 1, 0, 0), none, none⟩
      = ((⟨4, [⟨5, (0, 0, 0, 1), none, none⟩]⟩ : IMURingBuffer).accept
          ⟨5, (0, 1, 0, 0), none, none⟩, Except.ok ())) :=
  ⟨(push_out_of_order_ties_ok ⟨4, [⟨5, (0, 0, 0, 1), none, none⟩]⟩
      ⟨4, (0, 0, 0, 1), none, none⟩ ⟨5, (0, 0, 0, 1), none, none⟩ (by decide)).1
      (by decide),
   (push_out_of_order_ties_ok ⟨4, [⟨5, (0, 0, 0, 1), none, none⟩]⟩
      ⟨5, (0, 1, 0, 0), none, none⟩ ⟨5, (0, 0, 0, 1), none, none⟩ (by decide)).2
      rfl⟩

theorem tsMono_tail {l : List IMUSample} (h : tsMono l = true) :
    tsMono l.tail = true := by
  cases l with
  | nil => rfl
  | cons a t => exact tsMono_of_cons h

theorem accept_invariant (b : IMURingBuffer) (s : IMUSample)
    (hmono : tsMono (b.buffer ++ [s]) = true)
    (hlen : b.buffer.length ≤ b.capacity) :
    tsMono (b.accept s).buffer = true ∧ (b.accept s).buffer.length ≤ b.capacity
      ∧ (b.accept s).capacity = b.capacity := by
  unfold IMURingBuffer.accept
  by_cases h : b.capacity < (b.buffer ++ [s]).length
  · rw [if_pos h]
    refine ⟨tsMono_tail hmono, ?_, rfl⟩
    show (b.buffer ++ [s]).tail.length ≤ b.capacity
    have h1 : (b.buffer ++ [s]).length = b.buffer.length + 1 := by simp
    have h2 : (b.buffer ++ [s]).tail.length = (b.buffer ++ [s]).length - 1 := by
      simp [List.length_tail]
    omega
  · rw [if_neg h]
    refine ⟨hmono, ?_, rfl⟩
    show (b.buffer ++ [s]).length ≤ b.capacity
    have h1 : (b.buffer ++ [s]).length = b.buffer.length + 1 := by simp
    omega

theorem push_invariant (b : IMURingBuffer) (s : IMUSample)
    (b2 : IMURingBuffer) (r : Except String Unit) (hpush : b.push s = (b2, r))
    (hmono : tsMono b.buffer = true) (hlen : b.buffer.length ≤ b.capacity) :
    tsMono b2.buffer = true ∧ b2.buffer.length ≤ b2.capacity
      ∧ b2.capacity = b.capacity := by
  have hadm : ∀ _hm2 : tsMono (b.buffer ++ [s]) = true,
      (b.accept s, (Except.ok () : Except String Unit)) = (b2, r) →
      tsMono b2.buffer = true ∧ b2.buffer.length ≤ b2.capacity
        ∧ b2.capacity = b.capacity := by
    intro hm2 heq
    cases heq
    have hai := accept_invariant b s hm2 hlen
    exact ⟨hai.1, by omega, hai.2.2⟩
  unfold IMURingBuffer.push at hpush
  split at hpush
  · rename_i tail hcase
    split at hpush
    · cases hpush
      exact ⟨hmono, hlen, rfl⟩
    · rename_i hord
      refine hadm ?_ hpush
      refine tsMono_snoc hmono ?_
      intro u hu
      rw [hcase] at hu
      cases hu
      omega
  · rename_i hcase
    refine hadm ?_ hpush
    have hnil : b.buffer = [] := by
      cases hb : b.buffer with
      | nil => rfl
      | cons a t =>
          rw [hb] at hcase
          simp at hcase
    rw [hnil]
    rfl

theorem runBufOps_invariant (ops : List BufOp) :
    ∀ b : IMURingBuffer, tsMono b.buffer = true →
    b.buffer.length ≤ b.capacity →
    ∀ b2 r, runBufOps b ops = (b2, r) →
    tsMono b2.buffer = true ∧ b2.buffer.length ≤ b2.capacity
      ∧ b2.capacity = b.capacity := by
  induction ops with
  | nil =>
      intro b hmono hlen b2 r hrun
      cases hrun
      exact ⟨hmono, hlen, rfl⟩
  | cons op rest ih =>
      intro b hmono hlen b2 r hrun
      cases op with
      | clear =>
          have hstep : runBufOps b (BufOp.clear :: rest) = runBufOps b.wipe rest := rfl
          rw [hstep] at hrun
          have := ih b.wipe (by rfl) (by simp [IMURingBuffer.wipe]) b2 r hrun
          exact ⟨this.1, this.2.1, this.2.2⟩
      | push s =>
          match hp : b.push s with
          | (b1, Except.ok u) =>
              cases u
              have hinv := push_invariant b s b1 (Except.ok ()) hp hmono hlen
              have happ : applyBufOp b (BufOp.push s) = (b1, Except.ok ()) := hp
              have hstep : runBufOps b (BufOp.push s :: rest) = runBufOps b1 rest := by
                conv_lhs => rw [runBufOps]
                rw [happ]
              rw [hstep] at hrun
              have hres := ih b1 hinv.1 hinv.2.1 b2 r hrun
              exact ⟨hres.1, hres.2.1, hres.2.2.trans hinv.2.2⟩
          | (b1, Except.error e) =>
              have hinv := push_invariant b s b1 (Except.error e) hp hmono hlen
              have happ : applyBufOp b (BufOp.push s) = (b1, Except.error e) := hp
              have hstep : runBufOps b (BufOp.push s :: rest) = (b1, Except.error e) := by
                conv_lhs => rw [runBufOps]
                rw [happ]
              rw [hstep] at hrun
              cases hrun
              exact hinv

/-- C9: every buffer state reachable from construction by successful push
and clear operations has non-decreasing timestamps and never holds more
samples than the configured capacity (and the run preserves the capacity). -/
theorem ringBuffer_reachable_invariant (c : Int) (b0 : IMURingBuffer)
    (hcreate : IMURingBuffer.create c = .ok b0) (ops : List BufOp)
    (b : IMURingBuffer) (r : Except String Unit)
    (hrun : runBufOps b0 ops = (b, r)) :
    tsMono b.snapshot = true ∧ b.snapshot.length ≤ b.capacity
      ∧ b.capacity = c.toNat := by
  have hb0 : b0 = ⟨c.toNat, []⟩ := by
    unfold IMURingBuffer.create at hcreate
    by_cases hneg : c ≤ 0
    · rw [if_pos hneg] at hcreate
      cases hcreate
    · rw [if_neg hneg] at hcreate
      cases hcreate
      rfl
  subst hb0
  have := runBufOps_invariant ops ⟨c.toNat, []⟩ rfl (by simp) b r hrun
  exact ⟨this.1, this.2.1, this.2.2⟩

/-- C9 witness: capacity 2, four pushes (one a timestamp tie): the final
snapshot is time-ordered and within capacity. -/
theorem ringBuffer_reachable_invariant_witness :
    tsMono (IMURingBuffer.snapshot ⟨2, [⟨2, (0, 0, 0, 1), none, none⟩,
      ⟨3, (0, 0, 0, 1), none, none⟩]⟩) = true ∧
    (IMURingBuffer.snapshot ⟨2, [⟨2, (0, 0, 0, 1), none, none⟩,
      ⟨3, (0, 0, 0, 1), none, none⟩]⟩).length ≤ 2 ∧
    (2 : Nat) = (2 : Int).toNat := by
  have h := ringBuffer_reachable_invariant 2 ⟨2, []⟩ rfl
    [BufOp.push ⟨1, (0, 0, 0, 1), none, none⟩,
     BufOp.push ⟨1, (0, 0, 0, 1), none, none⟩,
     BufOp.push ⟨2, (0, 0, 0, 1), none, none⟩,
     BufOp.push ⟨3, (0, 0, 0, 1), none, none⟩]
    ⟨2, [⟨2, (0, 0, 0, 1), none, none⟩, ⟨3, (0, 0, 0, 1), none, none⟩]⟩
    (Except.ok ()) rfl
  exact h

/-! ## Journal lemmas: a serialized entry is a single line -/

theorem isDig_not_nl {c : Char} (h : isDig c = true) : c ≠ '\n' ∧ c ≠ '\r' := by
  constructor <;> (intro heq; rw [heq] at h; exact absurd h (by decide))

theorem natChars_not_nl (n : Nat) : ∀ c ∈ natChars n, c ≠ '\n' ∧ c ≠ '\r' :=
  fun c hc => isDig_not_nl (natChars_digits n c hc)

theorem intChars_not_nl (i : Int) : ∀ c ∈ intChars i, c ≠ '\n' ∧ c ≠ '\r' := by
  unfold intChars
  by_cases h : i < 0
  · rw [if_pos h]
    intro c hc
    rw [List.mem_cons] at hc
    cases hc with
    | inl h1 => subst h1; exact ⟨by decide, by decide⟩
    | inr h2 => exact natChars_not_nl _ c h2
  · rw [if_neg h]
    exact natChars_not_nl _

theorem hexDig_not_nl : ∀ n : Nat, n < 16 → hexDig n ≠ '\n' ∧ hexDig n ≠ '\r' := by
  decide

theorem escapeChar_not_nl (c : Char) : ∀ x ∈ escapeChar c, x ≠ '\n' ∧ x ≠ '\r' := by
  unfold escapeChar
  by_cases h1 : c = '"'
  · rw [if_pos h1]; intro x hx; fin_cases hx <;> exact ⟨by decide, by decide⟩
  rw [if_neg h1]
  by_cases h2 : c = '\\'
  · rw [if_pos h2]; intro x hx; fin_cases hx <;> exact ⟨by decide, by decide⟩
  rw [if_neg h2]
  by_cases h3 : c = '\x08'
  · rw [if_pos h3]; intro x hx; fin_cases hx <;> exact ⟨by decide, by decide⟩
  rw [if_neg h3]
  by_cases h4 : c = '\x0c'
  · rw [if_pos h4]; intro x hx; fin_cases hx <;> exact ⟨by decide, by decide⟩
  rw [if_neg h4]
  by_cases h5 : c = '\n'
  · rw [if_pos h5]; intro x hx; fin_cases hx <;> exact ⟨by decide, by decide⟩
  rw [if_neg h5]
  by_cases h6 : c = '\r'
  · rw [if_pos h6]; intro x hx; fin_cases hx <;> exact ⟨by decide, by decide⟩
  rw [if_neg h6]
  by_cases h7 : c = '\t'
  · rw [if_pos h7]; intro x hx; fin_cases hx <;> exact ⟨by decide, by decide⟩
  rw [if_neg h7]
  by_cases h8 : c.toNat < 32
  · rw [if_pos h8]
    intro x hx
    fin_cases hx
    · exact ⟨by decide, by decide⟩
    · exact ⟨by decide, by decide⟩
    · exact ⟨by decide, by decide⟩
    · exact ⟨by decide, by decide⟩
    · exact hexDig_not_nl _ (by omega)
    · exact hexDig_not_nl _ (by omega)
  · rw [if_neg h8]
    intro x hx
    rw [List.mem_singleton] at hx
    subst hx
    constructor <;> (intro heq; rw [heq] at h8; exact h8 (by decide))

theorem quoteStr_not_nl (s : List Char) : ∀ x ∈ quoteStr s, x ≠ '\n' ∧ x ≠ '\r' := by
  intro x hx
  unfold quoteStr at hx
  rw [List.mem_cons] at hx
  cases hx with
  | inl h1 => subst h1; exact ⟨by decide, by decide⟩
  | inr h2 =>
      rw [List.mem_append] at h2
      cases h2 with
      | inl h3 =>
          rw [List.mem_flatMap] at h3
          obtain ⟨c, _, hcm⟩ := h3
          exact escapeChar_not_nl c x hcm
      | inr h4 =>
          rw [List.mem_singleton] at h4
          subst h4
          exact ⟨by decide, by decide⟩

mutual

theorem stringify_not_nl : ∀ (j : Json), ∀ c ∈ stringifyJson j,
    c ≠ '\n' ∧ c ≠ '\r'
  | .null, c, hc => by
      fin_cases hc <;> exact ⟨by decide, by decide⟩
  | .bool true, c, hc => by
      fin_cases hc <;> exact ⟨by decide, by decide⟩
  | .bool false, c, hc => by
      fin_cases hc <;> exact ⟨by decide, by decide⟩
  | .num i, c, hc => intChars_not_nl i c hc
  | .str s, c, hc => quoteStr_not_nl s c hc
  | .arr items, c, hc => by
      show c ≠ '\n' ∧ c ≠ '\r'
      have hc2 : c ∈ '[' :: (stringifyItems items ++ [']']) := hc
      rw [List.mem_cons] at hc2
      cases hc2 with
      | inl h1 => subst h1; exact ⟨by decide, by decide⟩
      | inr h2 =>
          rw [List.mem_append] at h2
          cases h2 with
          | inl h3 => exact stringifyItems_not_nl items c h3
          | inr h4 =>
              rw [List.mem_singleton] at h4
              subst h4
              exact ⟨by decide, by decide⟩
  | .obj fields, c, hc => by
      show c ≠ '\n' ∧ c ≠ '\r'
      have hc2 : c ∈ '{' :: (stringifyFields fields ++ ['}']) := hc
      rw [List.mem_cons] at hc2
      cases hc2 with
      | inl h1 => subst h1; exact ⟨by decide, by decide⟩
      | inr h2 =>
          rw [List.mem_append] at h2
          cases h2 with
          | inl h3 => exact stringifyFields_not_nl fields c h3
          | inr h4 =>
              rw [List.mem_singleton] at h4
              subst h4
              exact ⟨by decide, by decide⟩

theorem stringifyItems_not_nl : ∀ (items : List Json), ∀ c ∈ stringifyItems items,
    c ≠ '\n' ∧ c ≠ '\r'
  | [], c, hc => by exact absurd hc (List.not_mem_nil c)
  | [x], c, hc => stringify_not_nl x c hc
  | x :: y :: rest, c, hc => by
      show c ≠ '\n' ∧ c ≠ '\r'
      have hc2 : c ∈ stringifyJson x ++ ',' :: stringifyItems (y :: rest) := hc
      rw [List.mem_append] at hc2
      cases hc2 with
      | inl h1 => exact stringify_not_nl x c h1
      | inr h2 =>
          rw [List.mem_cons] at h2
          cases h2 with
          | inl h3 => subst h3; exact ⟨by decide, by decide⟩
          | inr h4 => exact stringifyItems_not_nl (y :: rest) c h4

theorem stringifyFields_not_nl : ∀ (fields : List (List Char × Json)),
    ∀ c ∈ stringifyFields fields, c ≠ '\n' ∧ c ≠ '\r'
  | [], c, hc => by exact absurd hc (List.not_mem_nil c)
  | [(k, v)], c, hc => by
      show c ≠ '\n' ∧ c ≠ '\r'
      have hc2 : c ∈ quoteStr k ++ ':' :: stringifyJson v := hc
      rw [List.mem_append] at hc2
      cases hc2 with
      | inl h1 => exact quoteStr_not_nl k c h1
      | inr h2 =>
          rw [List.mem_cons] at h2
          cases h2 with
          | inl h3 => subst h3; exact ⟨by decide, by decide⟩
          | inr h4 => exact stringify_not_nl v c h4
  | (k, v) :: kv :: rest, c, hc => by
      show c ≠ '\n' ∧ c ≠ '\r'
      have hc2 : c ∈ quoteStr k ++ ':' :: stringifyJson v
          ++ ',' :: stringifyFields (kv :: rest) := hc
      rw [List.mem_append] at hc2
      cases hc2 with
      | inl h1 =>
          rw [List.mem_append] at h1
          cases h1 with
          | inl h5 => exact quoteStr_not_nl k c h5
          | inr h6 =>
              rw [List.mem_cons] at h6
              cases h6 with
              | inl h7 => subst h7; exact ⟨by decide, by decide⟩
              | inr h8 => exact stringify_not_nl v c h8
      | inr h2 =>
          rw [List.mem_cons] at h2
          cases h2 with
          | inl h3 => subst h3; exact ⟨by decide, by decide⟩
          | inr h4 => exact stringifyFields_not_nl (kv :: rest) c h4

end

/-! ## Splitting a well-formed journal file back into its lines -/

theorem splitLinesAux_nil : ∀ f : Nat, splitLinesAux f [] = [[]] := by
  intro f
  cases f <;> rfl

theorem splitLinesAux_cons (fuel : Nat) (c : Char) (rest : List Char) :
    splitLinesAux (fuel + 1) (c :: rest)
      = (if c = '\n' then [] :: splitLinesAux fuel rest
         else if c = '\r' then
           match rest with
           | [] =>
               match splitLinesAux fuel [] with
               | [] => [['\r']]
               | l :: ls => ('\r' :: l) :: ls
           | d :: rest2 =>
               if d = '\n' then [] :: splitLinesAux fuel rest2
               else
                 match splitLinesAux fuel (d :: rest2) with
                 | [] => [['\r']]
                 | l :: ls => ('\r' :: l) :: ls
         else
           match splitLinesAux fuel rest with
           | [] => [[c]]
           | l :: ls => (c :: l) :: ls) := rfl

theorem splitLinesAux_irrel : ∀ (n : Nat) (content : List Char),
    content.length ≤ n → ∀ f g, content.length ≤ f → content.length ≤ g →
    splitLinesAux f content = splitLinesAux g content := by
  intro n
  induction n with
  | zero =>
      intro content hn f g _ _
      have hc : content = [] := List.eq_nil_of_length_eq_zero (by omega)
      subst hc
      rw [splitLinesAux_nil, splitLinesAux_nil]
  | succ n ih =>
      intro content hn f g hf hg
      match content with
      | [] => rw [splitLinesAux_nil, splitLinesAux_nil]
      | c :: rest =>
          match f, g with
          | f2 + 1, g2 + 1 =>
              simp only [List.length_cons] at hn hf hg
              rw [splitLinesAux_cons, splitLinesAux_cons]
              by_cases h1 : c = '\n'
              · rw [if_pos h1, if_pos h1,
                  ih rest (by omega) f2 g2 (by omega) (by omega)]
              rw [if_neg h1, if_neg h1]
              by_cases h2 : c = '\r'
              · rw [if_pos h2, if_pos h2]
                match rest with
                | [] => rw [splitLinesAux_nil, splitLinesAux_nil]
                | d :: rest2 =>
                    simp only [List.length_cons] at hn hf hg
                    show (if d = '\n' then [] :: splitLinesAux f2 rest2
                          else match splitLinesAux f2 (d :: rest2) with
                               | [] => [['\r']]
                               | l :: ls => ('\r' :: l) :: ls)
                        = (if d = '\n' then [] :: splitLinesAux g2 rest2
                           else match splitLinesAux g2 (d :: rest2) with
                                | [] => [['\r']]
                                | l :: ls => ('\r' :: l) :: ls)
                    by_cases h3 : d = '\n'
                    · rw [if_pos h3, if_pos h3,
                        ih rest2 (by omega) f2 g2 (by omega) (by omega)]
                    · rw [if_neg h3, if_neg h3,
                        ih (d :: rest2) (by simp; omega) f2 g2
                          (by simp; omega) (by simp; omega)]
              · rw [if_neg h2, if_neg h2,
                  ih rest (by omega) f2 g2 (by omega) (by omega)]

theorem splitLines_nl (rest : List Char) :
    splitLines ('\n' :: rest) = [] :: splitLines rest := by
  show splitLinesAux (rest.length + 1) ('\n' :: rest) = _
  rw [splitLinesAux_cons, if_pos rfl]
  rfl

theorem splitLines_char (c : Char) (rest : List Char)
    (h1 : c ≠ '\n') (h2 : c ≠ '\r') :
    splitLines (c :: rest)
      = (match splitLines rest with
         | [] => [[c]]
         | l :: ls => (c :: l) :: ls) := by
  show splitLinesAux (rest.length + 1) (c :: rest) = _
  rw [splitLinesAux_cons, if_neg h1, if_neg h2]
  rfl

theorem splitLines_line (line : List Char)
    (hline : ∀ c ∈ line, c ≠ '\n' ∧ c ≠ '\r') (rest : List Char) :
    splitLines (line ++ '\n' :: rest) = line :: splitLines rest := by
  induction line with
  | nil => exact splitLines_nl rest
  | cons c t ih =>
      have hc := hline c (List.mem_cons_self c t)
      have ht := ih fun x hx => hline x (List.mem_cons_of_mem c hx)
      show splitLines (c :: (t ++ '\n' :: rest)) = _
      rw [splitLines_char c _ hc.1 hc.2, ht]

theorem splitLines_joinLines (ls : List (List Char))
    (hls : ∀ l ∈ ls, ∀ c ∈ l, c ≠ '\n' ∧ c ≠ '\r') :
    splitLines (joinLines ls) = ls ++ [[]] := by
  induction ls with
  | nil => rfl
  | cons l t ih =>
      have h1 := hls l (List.mem_cons_self l t)
      have harg : joinLines (l :: t) = l ++ '\n' :: joinLines t := by
        show ((l ++ ['\n']) :: (t.map fun x => x ++ ['\n'])).flatten = _
        rw [List.flatten_cons, List.append_assoc]
        rfl
      rw [harg, splitLines_line l h1,
        ih fun x hx => hls x (List.mem_cons_of_mem l hx)]
      rfl

theorem meaningfulLines_joinLines (ls : List (List Char))
    (hls : ∀ l ∈ ls, ∀ c ∈ l, c ≠ '\n' ∧ c ≠ '\r') :
    meaningfulLines (joinLines ls) = ls.filter (fun l => l ≠ []) := by
  unfold meaningfulLines
  rw [splitLines_joinLines ls hls, List.filter_append]
  simp

theorem meaningfulLines_journalFile (entries : List JournalEntry) :
    meaningfulLines (journalFile entries)
      = entries.map fun e => stringifyJson e.toJson := by
  unfold journalFile
  rw [meaningfulLines_joinLines]
  · rw [List.filter_eq_self.mpr]
    intro l hl
    rw [List.mem_map] at hl
    obtain ⟨e, _, he⟩ := hl
    have hpos := stringify_length_pos e.toJson
    have hne : l ≠ [] := by
      rw [← he]
      intro hnil
      rw [hnil] at hpos
      simp at hpos
    simp [hne]
  · intro l hl
    rw [List.mem_map] at hl
    obtain ⟨e, _, he⟩ := hl
    rw [← he]
    exact stringify_not_nl e.toJson

theorem mapM_parse_map (entries : List JournalEntry) :
    (entries.map fun e => stringifyJson e.toJson).mapM jsonParse
      = Except.ok (entries.map fun e => e.toJson) := by
  induction entries with
  | nil => rfl
  | cons e t ih =>
      simp only [List.map_cons, List.mapM_cons, jsonParse_stringify, ih]
      rfl

theorem readAll_journalFile (entries : List JournalEntry) :
    SignalJournal.readAll (some (journalFile entries))
      = .ok (entries.map fun e => e.toJson) := by
  show (meaningfulLines (journalFile entries)).mapM jsonParse = _
  rw [meaningfulLines_journalFile, mapM_parse_map]

/-- C2: appending an entry whose payload fails validation throws the
validator's joined field-path + message text and writes nothing — the
backing file (existing or not) is exactly what it was before the call. -/
theorem append_invalid_writes_nothing (file : FileState) (entry : JournalEntry)
    (e0 : SchemaError) (errs : List SchemaError)
    (hinvalid : validate entry.kind (some entry.payload) = e0 :: errs) :
    SignalJournal.append file entry
      = (file, Except.error (ajvMessage (e0 :: errs))) := by
  unfold SignalJournal.append
  rw [hinvalid]

/-- C2 witness (end-to-end scenario 4): appending an `event.v1` envelope
whose payload is missing `ZOOM_DELTA` onto a non-existent journal raises
the ajv message for the missing property and the file is still absent. -/
theorem append_invalid_writes_nothing_witness :
    SignalJournal.append (none : FileState) ⟨.eventV1, sampleEventNoZoom⟩
      = (none, Except.error "/payload must have required property 'ZOOM_DELTA'") := by
  have h := append_invalid_writes_nothing none ⟨.eventV1, sampleEventNoZoom⟩
    ⟨"/payload".data,
      "must have required property 'ZOOM_DELTA'".data⟩ [] rfl
  rw [h]
  rfl

/-- C3: appending a valid entry extends the journal file by one serialized
line, so `readAll` returns the old entries followed by the new one (its
last element deep-equals the appended entry); the never-written file
behaves like the empty journal; and after `clear()` the file does not
exist and `readAll` returns the empty sequence. -/
theorem journal_roundtrip (prior : List JournalEntry) (entry : JournalEntry)
    (hvalid : validate entry.kind (some entry.payload) = []) :
    SignalJournal.append (some (journalFile prior)) entry
        = (some (journalFile (prior ++ [entry])), Except.ok ()) ∧
    SignalJournal.append none entry
        = (some (journalFile [entry]), Except.ok ()) ∧
    SignalJournal.readAll (some (journalFile (prior ++ [entry])))
        = .ok ((prior ++ [entry]).map fun e => e.toJson) ∧
    ((prior ++ [entry]).map fun e => e.toJson).getLast? = some entry.toJson ∧
    SignalJournal.clear (some (journalFile (prior ++ [entry]))) = none ∧
    SignalJournal.readAll
        (SignalJournal.clear (some (journalFile (prior ++ [entry])))) = .ok [] := by
  have hfile : ∀ before : List Char,
      before ++ stringifyJson entry.toJson ++ ['\n']
        = before ++ (stringifyJson entry.toJson ++ ['\n']) := by
    intro before
    rw [List.append_assoc]
  have hjf : journalFile (prior ++ [entry])
      = journalFile prior ++ (stringifyJson entry.toJson ++ ['\n']) := by
    unfold journalFile joinLines
    rw [List.map_append, List.map_append, List.flatten_append]
    simp
  refine ⟨?_, ?_, ?_, ?_, rfl, ?_⟩
  · unfold SignalJournal.append
    rw [hvalid]
    show (some (journalFile prior ++ stringifyJson entry.toJson ++ ['\n']),
        Except.ok ()) = _
    rw [hfile, ← hjf]
  · unfold SignalJournal.append
    rw [hvalid]
    show (some ([] ++ stringifyJson entry.toJson ++ ['\n']), Except.ok ()) = _
    have hsingle : journalFile [entry] = stringifyJson entry.toJson ++ ['\n'] := by
      unfold journalFile joinLines
      simp
    rw [hsingle]
    simp
  · exact readAll_journalFile (prior ++ [entry])
  · rw [List.map_append]
    rw [List.getLast?_append_of_ne_nil _ (by simp)]
    rfl
  · rfl

/-- C3 witness: appending the sample valid event to a one-entry journal;
`readAll` ends with the appended entry, and clearing empties everything. -/
theorem journal_roundtrip_witness :
    SignalJournal.append (some (journalFile [⟨.eventV1, sampleEvent⟩]))
        ⟨.eventV1, sampleEvent⟩
      = (some (journalFile [⟨.eventV1, sampleEvent⟩, ⟨.eventV1, sampleEvent⟩]),
         Except.ok ()) ∧
    SignalJournal.readAll
        (some (journalFile [⟨.eventV1, sampleEvent⟩, ⟨.eventV1, sampleEvent⟩]))
      = .ok [JournalEntry.toJson ⟨.eventV1, sampleEvent⟩,
             JournalEntry.toJson ⟨.eventV1, sampleEvent⟩] ∧
    SignalJournal.clear
        (some (journalFile [⟨.eventV1, sampleEvent⟩, ⟨.eventV1, sampleEvent⟩]))
      = none := by
  have h := journal_roundtrip [⟨.eventV1, sampleEvent⟩] ⟨.eventV1, sampleEvent⟩ rfl
  exact ⟨h.1, h.2.2.1, h.2.2.2.2.1⟩

theorem mapM_error_of_mem {α β : Type} (f : α → Except String β) :
    ∀ (l : List α) (x : α), x ∈ l → ∀ e, f x = .error e →
    ∃ e2, l.mapM f = Except.error e2 := by
  intro l
  induction l with
  | nil =>
      intro x hx
      exact absurd hx (List.not_mem_nil x)
  | cons a t ih =>
      intro x hx e hfx
      rw [List.mem_cons] at hx
      match ha : f a with
      | .error ea =>
          refine ⟨ea, ?_⟩
          rw [List.mapM_cons, ha]
          rfl
      | .ok b =>
          cases hx with
          | inl h1 =>
              subst h1
              rw [hfx] at ha
              cases ha
          | inr h2 =>
              obtain ⟨e2, he2⟩ := ih x h2 e hfx
              refine ⟨e2, ?_⟩
              rw [List.mapM_cons, ha, he2]
              rfl

/-- C7: `readAll` on a missing file is the empty sequence (not an error);
on an existing file it splits on newlines, discards empty lines (so a
trailing newline is tolerated), parses every remaining line, and a single
malformed line fails the whole read with no partial result. -/
theorem readAll_missing_empty_failfast :
    SignalJournal.readAll none = .ok [] ∧
    (∀ ls : List (List Char), (∀ l ∈ ls, ∀ c ∈ l, c ≠ '\n' ∧ c ≠ '\r') →
      SignalJournal.readAll (some (joinLines ls))
        = (ls.filter (fun l => l ≠ [])).mapM jsonParse) ∧
    (∀ (content : List Char) (line : List Char),
      line ∈ meaningfulLines content → ∀ e, jsonParse line = .error e →
      ∃ e2, SignalJournal.readAll (some content) = Except.error e2) := by
  refine ⟨rfl, ?_, ?_⟩
  · intro ls hls
    show (meaningfulLines (joinLines ls)).mapM jsonParse = _
    rw [meaningfulLines_joinLines ls hls]
  · intro content line hmem e herr
    exact mapM_error_of_mem jsonParse (meaningfulLines content) line hmem e herr

/-- C7 witness: the missing file reads as empty; a file holding a malformed
line (a lone brace) plus a trailing newline fails the whole read. -/
theorem readAll_missing_empty_failfast_witness :
    SignalJournal.readAll none = .ok [] ∧
    (∃ e2, SignalJournal.readAll (some ['\x7b', '\n']) = Except.error e2) := by
  refine ⟨readAll_missing_empty_failfast.1, ?_⟩
  exact readAll_missing_empty_failfast.2.2 ['\x7b', '\n'] ['\x7b'] (by decide)
    "Unexpected end of JSON input" rfl

/-- C10: the journal read path does no validation — `readAll` returns
exactly what the lines parse to, with no reference to the schema validator,
and an entry that `assertValid` rejects is still returned; the replay
engine's `readFrames` on the same file fails instead. -/
theorem readAll_not_a_validation_boundary :
    (∀ (content : List Char) (js : List Json),
      (meaningfulLines content).mapM jsonParse = Except.ok js →
      SignalJournal.readAll (some content) = .ok js) ∧
    (∃ (content : List Char) (j : Json) (m m2 : String),
      SignalJournal.readAll (some content) = .ok [j] ∧
      frameAssert j = .error m ∧
      readFrames (some content) = .error m2) := by
  constructor
  · intro content js h
    exact h
  · exact ⟨journalFile [⟨.eventV1, Json.obj []⟩],
      JournalEntry.toJson ⟨.eventV1, Json.obj []⟩, _, _,
      readAll_journalFile [⟨.eventV1, Json.obj []⟩], rfl, rfl⟩

/-- C10 witness: a journal file whose single entry has an empty-object
payload — `assertValid` rejects it — is still returned by `readAll`. -/
theorem readAll_not_a_validation_boundary_witness :
    SignalJournal.readAll (some (journalFile [⟨.eventV1, Json.obj []⟩]))
      = .ok [JournalEntry.toJson ⟨.eventV1, Json.obj []⟩] :=
  readAll_not_a_validation_boundary.1 (journalFile [⟨.eventV1, Json.obj []⟩])
    [JournalEntry.toJson ⟨.eventV1, Json.obj []⟩] (by rfl)

/-! ## Ingress server lemmas -/

theorem exceptBind_ok {α β : Type} (x : α) (f : α → Except String β) :
    (Except.ok x >>= f) = f x := rfl

/-- C8: per inbound message, a parse that validates is answered with
`status ok` echoing the kind and the untransformed payload as `minimal`;
any parse or validation throw is answered with `status error` carrying the
message; and the connection handler answers every message, one response
per message, never terminating the session on a bad one. -/
theorem ingress_per_message (data : List Char) :
    (∀ parsed kind, jsonParse data = .ok parsed →
      kindOf (parsed.getField "kind".data) = .ok kind →
      validate kind (parsed.getField "payload".data) = [] →
      ∃ p, parsed.getField "payload".data = some p ∧
        handleMessage data
          = Json.obj [("status".data, Json.str "ok".data),
                      ("kind".data, Json.str kind.name),
                      ("minimal".data, p)]) ∧
    (∀ e, telemetryMessage data = .error e →
      handleMessage data = errorResponse e) ∧
    (∀ msgs : List (List Char),
      handleConnection msgs = msgs.map handleMessage ∧
      (handleConnection msgs).length = msgs.length) := by
  refine ⟨?_, ?_, ?_⟩
  · intro parsed kind hparse hkind hval
    obtain ⟨p, hp⟩ : ∃ p, parsed.getField "payload".data = some p := by
      match hcase : parsed.getField "payload".data with
      | some p => exact ⟨p, rfl⟩
      | none =>
          rw [hcase] at hval
          simp [validate, typeErr] at hval
    refine ⟨p, hp, ?_⟩
    have htel : telemetryMessage data = .ok (kind, some p) := by
      have hassert : assertValid kind (some p) = Except.ok () := by
        rw [hp] at hval
        unfold assertValid
        rw [hval]
      unfold telemetryMessage
      rw [hparse, exceptBind_ok, hkind, exceptBind_ok, hp]
      show (assertValid kind (some p) >>= fun _ => pure (kind, some p)) = _
      rw [hassert]
      rfl
    unfold handleMessage
    rw [htel]
    rfl
  · intro e he
    unfold handleMessage
    rw [he]
  · intro msgs
    exact ⟨rfl, by simp [handleConnection]⟩

set_option maxRecDepth 4000 in
/-- C8 witness: the end-to-end scenario 1 message gets the ok echo, and a
non-JSON message gets the error response on the same open handler. -/
theorem ingress_per_message_witness :
    handleMessage sampleWireMessage
      = Json.obj [("status".data, Json.str "ok".data),
                  ("kind".data, Json.str EnvelopeKind.eventV1.name),
                  ("minimal".data, sampleEvent)] ∧
    handleMessage ['h', 'i'] = errorResponse "Unexpected token in JSON" := by
  constructor
  · obtain ⟨p, hp, hresp⟩ := (ingress_per_message sampleWireMessage).1
      (Json.obj [("kind".data, .str "event.v1".data), ("payload".data, sampleEvent)])
      .eventV1 (jsonParse_stringify _) rfl rfl
    have hp2 : some sampleEvent = some p := hp
    injection hp2 with hpe
    rw [← hpe] at hresp
    exact hresp
  · exact (ingress_per_message ['h', 'i']).2.1 _ rfl

/-! ## Replay sender lemmas -/

theorem sendFrames_settled_stable (frames : List Json) (b : Bool) :
    ∀ (events : List WsEvent) (s : ReplaySend), s.settled = some b →
    (events.foldl (sendFramesStep frames) s).settled = some b := by
  intro events
  induction events with
  | nil =>
      intro s hs
      exact hs
  | cons ev rest ih =>
      intro s hs
      rw [List.foldl_cons]
      refine ih _ ?_
      cases ev with
      | opened => exact hs
      | message =>
          show (if s.settled = none ∧ frames.length ≤ s.acks + 1
              then some true else s.settled) = some b
          rw [if_neg (by rw [hs]; simp)]
          exact hs
      | errored =>
          show (if s.settled = none then some false else s.settled) = some b
          rw [if_neg (by rw [hs]; simp)]
          exact hs

theorem sendFrames_messages_counted (frames : List Json) :
    ∀ (k : Nat) (s : ReplaySend),
    ((List.replicate k WsEvent.message).foldl
        (sendFramesStep frames) s).sentFrames = s.sentFrames
    ∧ ((List.replicate k WsEvent.message).foldl
        (sendFramesStep frames) s).acks = s.acks + k := by
  intro k
  induction k with
  | zero =>
      intro s
      exact ⟨rfl, rfl⟩
  | succ k ih =>
      intro s
      rw [List.replicate_succ, List.foldl_cons]
      have hrec := ih (sendFramesStep frames s WsEvent.message)
      refine ⟨hrec.1, ?_⟩
      rw [hrec.2]
      have hacks : (sendFramesStep frames s WsEvent.message).acks = s.acks + 1 := rfl
      rw [hacks]
      omega

theorem sendFrames_run_messages (frames : List Json) :
    ∀ (k : Nat) (sf : List Json) (acks : Nat),
    (List.replicate k WsEvent.message).foldl (sendFramesStep frames) ⟨sf, acks, none⟩
      = ⟨sf, acks + k,
          if 1 ≤ k ∧ frames.length ≤ acks + k then some true else none⟩ := by
  intro k
  induction k with
  | zero =>
      intro sf acks
      simp
  | succ k ih =>
      intro sf acks
      rw [List.replicate_succ, List.foldl_cons]
      have hstep : sendFramesStep frames ⟨sf, acks, none⟩ WsEvent.message
          = ⟨sf, acks + 1,
              if frames.length ≤ acks + 1 then some true else none⟩ := by
        show (⟨sf, acks + 1,
            if (none : Option Bool) = none ∧ frames.length ≤ acks + 1
              then some true else none⟩ : ReplaySend) = _
        by_cases h : frames.length ≤ acks + 1
        · rw [if_pos ⟨rfl, h⟩, if_pos h]
        · rw [if_neg (by simp [h]), if_neg h]
      rw [hstep]
      by_cases h : frames.length ≤ acks + 1
      · rw [if_pos h]
        have hsettled := sendFrames_settled_stable frames true
          (List.replicate k WsEvent.message) ⟨sf, acks + 1, some true⟩ rfl
        have hcount := sendFrames_messages_counted frames k ⟨sf, acks + 1, some true⟩
        have hfin : (List.replicate k WsEvent.message).foldl
            (sendFramesStep frames) ⟨sf, acks + 1, some true⟩
              = ⟨sf, acks + 1 + k, some true⟩ := by
          obtain ⟨h1, h2⟩ := hcount
          cases hfold : (List.replicate k WsEvent.message).foldl
              (sendFramesStep frames) ⟨sf, acks + 1, some true⟩ with
          | mk sfr ack st =>
              rw [hfold] at h1 h2 hsettled
              simp only at h1 h2 hsettled
              rw [h1, h2, hsettled]
        rw [hfin,
          if_pos (show 1 ≤ k + 1 ∧ frames.length ≤ acks + (k + 1) from
            ⟨by omega, by omega⟩)]
        have harith : acks + 1 + k = acks + (k + 1) := by omega
        rw [harith]
      · rw [if_neg h, ih sf (acks + 1)]
        have harith : acks + 1 + k = acks + (k + 1) := by omega
        rw [harith]
        by_cases hk : 1 ≤ k ∧ frames.length ≤ acks + (k + 1)
        · rw [if_pos hk,
            if_pos (show 1 ≤ k + 1 ∧ frames.length ≤ acks + (k + 1) from
              ⟨by omega, hk.2⟩)]
        · rw [if_neg hk,
            if_neg (show ¬ (1 ≤ k + 1 ∧ frames.length ≤ acks + (k + 1)) by omega)]

/-- C5 (amended to non-empty frame lists): upon connection open every frame
is sent in recorded order; counting `k` acknowledgement messages leaves the
acknowledgement counter at `k`, and the returned promise is resolved
exactly when the count has reached the number of frames sent; a connection
error before that rejects immediately and no later event un-rejects it. -/
theorem sendFrames_ack_completion (frames : List Json) (hne : frames ≠ [])
    (k : Nat) :
    (sendFramesRun frames [WsEvent.opened]).sentFrames = frames ∧
    (sendFramesRun frames
        (WsEvent.opened :: List.replicate k WsEvent.message)).acks = k ∧
    ((sendFramesRun frames
        (WsEvent.opened :: List.replicate k WsEvent.message)).settled = some true
      ↔ frames.length ≤ k) ∧
    (∀ j, j < frames.length → ∀ more : List WsEvent,
      (sendFramesRun frames (WsEvent.opened ::
          (List.replicate j WsEvent.message ++ WsEvent.errored :: more))).settled
        = some false) := by
  have hopen : sendFramesStep frames ⟨[], 0, none⟩ WsEvent.opened
      = ⟨frames, 0, none⟩ := by
    show (⟨[] ++ frames, 0, none⟩ : ReplaySend) = _
    rw [List.nil_append]
  have hlen : 1 ≤ frames.length := by
    cases frames with
    | nil => exact absurd rfl hne
    | cons a t => simp
  refine ⟨?_, ?_, ?_, ?_⟩
  · show (sendFramesStep frames ⟨[], 0, none⟩ WsEvent.opened).sentFrames = frames
    rw [hopen]
  · show ((List.replicate k WsEvent.message).foldl (sendFramesStep frames)
        (sendFramesStep frames ⟨[], 0, none⟩ WsEvent.opened)).acks = k
    rw [hopen, sendFrames_run_messages]
    show 0 + k = k
    omega
  · show ((List.replicate k WsEvent.message).foldl (sendFramesStep frames)
        (sendFramesStep frames ⟨[], 0, none⟩ WsEvent.opened)).settled = some true
        ↔ frames.length ≤ k
    rw [hopen, sendFrames_run_messages]
    constructor
    · intro h
      by_cases hc : 1 ≤ k ∧ frames.length ≤ 0 + k
      · omega
      · rw [if_neg hc] at h
        cases h
    · intro h
      rw [if_pos (by omega)]
  · intro j hj more
    show ((List.replicate j WsEvent.message ++ WsEvent.errored :: more).foldl
        (sendFramesStep frames)
        (sendFramesStep frames ⟨[], 0, none⟩ WsEvent.opened)).settled = some false
    rw [hopen, List.foldl_append, sendFrames_run_messages,
      if_neg (by omega : ¬ (1 ≤ j ∧ frames.length ≤ 0 + j)), List.foldl_cons]
    have herr : sendFramesStep frames ⟨frames, 0 + j, none⟩ WsEvent.errored
        = ⟨frames, 0 + j, some false⟩ := by
      show (⟨frames, 0 + j,
          if (none : Option Bool) = none then some false else none⟩ : ReplaySend) = _
      rw [if_pos rfl]
    rw [herr]
    have hstable := sendFrames_settled_stable frames false more
      ⟨frames, 0 + j, some false⟩ rfl
    exact hstable

/-- C5 witness: two frames, opened then two acknowledgements — resolved
with the counter equal to the frame count; one acknowledgement then an
error — rejected. -/
theorem sendFrames_ack_completion_witness :
    (sendFramesRun [Json.null, Json.bool true] [WsEvent.opened]).sentFrames
      = [Json.null, Json.bool true] ∧
    (sendFramesRun [Json.null, Json.bool true]
        (WsEvent.opened :: List.replicate 2 WsEvent.message)).settled = some true ∧
    (sendFramesRun [Json.null, Json.bool true]
        (WsEvent.opened :: (List.replicate 1 WsEvent.message
          ++ WsEvent.errored :: []))).settled = some false := by
  have h := sendFrames_ack_completion [Json.null, Json.bool true] (by simp) 2
  exact ⟨h.1, h.2.2.1.mpr (by simp), h.2.2.2 1 (by simp) []⟩

/-- C5 counterexample: for the empty frame list the promise never settles —
after the connection opens, the acknowledgement count (0) already equals
the number of frames sent (0), yet the operation does not complete, because
resolution is only ever checked inside the message handler and no
acknowledgements will arrive for zero sent frames. -/
theorem sendFrames_empty_never_completes :
    (sendFramesRun [] [WsEvent.opened]).acks
        = (sendFramesRun [] [WsEvent.opened]).sentFrames.length ∧
    (sendFramesRun [] [WsEvent.opened]).settled = none :=
  ⟨rfl, rfl⟩

/-! ## Ingress port configuration -/

/-- C6 (amended to non-empty values): when the PORT variable holds a
non-empty string with no parseable digit prefix, `parseInt` yields `NaN`
and `server.listen` throws at startup — no fallback to the default port. -/
theorem port_failfast_nonempty (s : List Char) (hne : s ≠ [])
    (hnan : parseIntJs s = none) :
    startServer (some s) = .error "ERR_SOCKET_BAD_PORT" := by
  unfold startServer envPort
  show (match parseIntJs (if s = [] then "8080".data else s) with
      | none => Except.error "ERR_SOCKET_BAD_PORT"
      | some p => if 0 ≤ p ∧ p ≤ 65535 then Except.ok p
          else Except.error "ERR_SOCKET_BAD_PORT")
    = Except.error "ERR_SOCKET_BAD_PORT"
  rw [if_neg hne, hnan]

/-- C6 witness: `PORT=abc` fails startup with the bad-port error. -/
theorem port_failfast_nonempty_witness :
    startServer (some ['a', 'b', 'c']) = .error "ERR_SOCKET_BAD_PORT" :=
  port_failfast_nonempty ['a', 'b', 'c'] (by simp) rfl

/-- C6 counterexample: two non-numeric PORT values that do not fail fast —
the empty string silently falls back to the default port 8080, and
`"12ab"` silently starts on port 12 (its digit prefix). -/
theorem port_counterexample :
    parseIntJs [] = none ∧
    startServer (some []) = .ok 8080 ∧
    parseIntJs ['1', '2', 'a', 'b'] = some 12 ∧
    startServer (some ['1', '2', 'a', 'b']) = .ok 12 :=
  ⟨rfl, rfl, rfl, rfl⟩

end Vib3
